import Mathlib

/-!
Verification development for the course-scheduling engine
(`Models.cpp`, `PQTree.cpp`, `Scheduler.cpp`).

The C++ sources are shallowly embedded: C++ `int` becomes `Int` (no claim
here depends on 32-bit wrap-around; the one place the source mentions
`INT_MAX` is modelled with the literal 2147483647), `std::string` becomes
`String`, `std::vector` becomes `List`, and methods become functions whose
first argument is the receiver.  Shared pointers: every `Schedule` section
entry is created by a fresh `make_shared`, so `Schedule::addSection`
(which deduplicates by pointer equality) always appends, and
`Schedule::removeSection` erases exactly the chosen entry; the embedding
therefore uses plain list append / positional erase.
-/

namespace CourseSched

/-- Day enum from `Models.hpp` (`MONDAY..FRIDAY, UNASSIGNED`, values 0..5). -/
inductive Day where
  | monday
  | tuesday
  | wednesday
  | thursday
  | friday
  | unassigned
deriving DecidableEq, Repr

/-- Numeric value of the C++ enum constant. -/
def Day.toNat : Day → Nat
  | .monday => 0
  | .tuesday => 1
  | .wednesday => 2
  | .thursday => 3
  | .friday => 4
  | .unassigned => 5

/-- Inverse of the `static_cast<TimeSlot::Day>` applied to an int in 0..4
(`Scheduler.cpp`, `createScheduleVariations`); other values never occur there. -/
def dayOfNat : Nat → Day
  | 0 => .monday
  | 1 => .tuesday
  | 2 => .wednesday
  | 3 => .thursday
  | 4 => .friday
  | _ => .unassigned

/-- TimeSlot from `Models.hpp`: fields in member order `day, startHour,
startMinute, durationMinutes`. -/
structure TimeSlot where
  day : Day
  startHour : Int
  startMinute : Int
  durationMinutes : Int
deriving DecidableEq, Repr

/-- TimeSlot::hasStartTime: `startHour >= 0 && startMinute >= 0`. -/
def TimeSlot.hasStartTime (t : TimeSlot) : Bool :=
  decide (0 ≤ t.startHour) && decide (0 ≤ t.startMinute)

/-- TimeSlot::hasDay: `day != UNASSIGNED`. -/
def TimeSlot.hasDay (t : TimeSlot) : Bool :=
  decide (t.day ≠ Day.unassigned)

/-- TimeSlot::overlaps from `Models.cpp` lines 95-116. -/
def TimeSlot.overlaps (t other : TimeSlot) : Bool :=
  if !t.hasDay || !other.hasDay then false
  else if t.day ≠ other.day then false
  else if !t.hasStartTime || !other.hasStartTime then false
  else
    let thisStart := t.startHour * 60 + t.startMinute
    let thisEnd := thisStart + t.durationMinutes
    let otherStart := other.startHour * 60 + other.startMinute
    let otherEnd := otherStart + other.durationMinutes
    decide (thisStart < otherEnd) && decide (thisEnd > otherStart)

/-- Day names used by TimeSlot::toString (`dayNames` array). -/
def dayName : Day → String
  | .monday => "Mon"
  | .tuesday => "Tue"
  | .wednesday => "Wed"
  | .thursday => "Thu"
  | .friday => "Fri"
  | .unassigned => "?"

/-- Rendering of `ss << std::setw(2) << std::setfill('0') << m`:
zero-padding to width 2.  C++ `int` prints like `toString : Int`. -/
def padTwo (n : Int) : String :=
  let s := toString n
  if s.length < 2 then String.mk (List.replicate (2 - s.length) ('0')) ++ s else s

/-- TimeSlot::toString from `Models.cpp` lines 46-93.  C++ `/` and `%` on
`int` truncate toward zero, hence `Int.tdiv` / `Int.tmod`. -/
def TimeSlot.render (t : TimeSlot) : String :=
  if !t.hasDay then ("Unassigned (" ++ toString t.durationMinutes ++ " min)")
  else if !t.hasStartTime then (dayName t.day ++ " (" ++ toString t.durationMinutes ++ " min)")
  else
    let hour12a := if t.startHour > 12 then t.startHour - 12 else t.startHour
    let hour12 := if hour12a = 0 then (12 : Int) else hour12a
    let endMinute := Int.tmod (t.startMinute + t.durationMinutes) 60
    let endHour := t.startHour + Int.tdiv (t.startMinute + t.durationMinutes) 60
    let endHour12a := if endHour > 12 then endHour - 12 else endHour
    let endHour12 := if endHour12a = 0 then (12 : Int) else endHour12a
    dayName t.day ++ " " ++ toString hour12 ++
      (if t.startMinute > 0 then (":" ++ padTwo t.startMinute) else ("")) ++
      "-" ++ toString endHour12 ++
      (if endMinute > 0 then (":" ++ padTwo endMinute) else ("")) ++
      " " ++ (if t.startHour < 12 then ("AM") else ("PM"))

/-- Teacher record (`Models.hpp`); the course back-reference list does not
take part in any claim and is omitted. -/
structure Teacher where
  id : String
  name : String
deriving DecidableEq, Repr

/-- Course record (`Models.hpp`); the section back-reference list is omitted
for the same reason. -/
structure Course where
  code : String
  name : String
  credits : Int
deriving DecidableEq, Repr

/-- Section record (`Models.hpp`). -/
structure Section where
  id : String
  course : Course
  teacher : Teacher
  timeSlot : TimeSlot
deriving DecidableEq, Repr

/-- Schedule from `Models.hpp`: its only state is the `sections` vector. -/
abbrev Schedule := List Section

/-- Schedule::getSectionsForCourse from `Models.cpp` lines 325-333. -/
def getSectionsForCourse (schedule : Schedule) (courseCode : String) : List Section :=
  schedule.filter fun s => decide (s.course.code = courseCode)

/-- Pair test of Schedule::hasConflicts (`Models.cpp` lines 335-351): same
teacher id, both slots fully assigned, and the slots overlap. -/
def sectionsConflict (a b : Section) : Bool :=
  decide (a.teacher.id = b.teacher.id) &&
  (a.timeSlot.hasDay && a.timeSlot.hasStartTime &&
   b.timeSlot.hasDay && b.timeSlot.hasStartTime) &&
  a.timeSlot.overlaps b.timeSlot

/-- Schedule::hasConflicts: the C++ double loop over index pairs i < j. -/
def hasConflicts : Schedule → Bool
  | [] => false
  | s :: rest => rest.any (sectionsConflict s) || hasConflicts rest

/-- Requirement hierarchy from `Models.hpp`: the three concrete subclasses as
a sum type. -/
inductive Requirement where
  | timeSlotReq (course : Course) (timeSlot : TimeSlot)
  | teacherReq (course : Course) (teacher : Teacher)
  | sectionTimeSlotReq (sec : Section) (timeSlot : TimeSlot)
deriving DecidableEq, Repr

/-- Test used by `Scheduler.cpp` (`dynamic_pointer_cast<SectionTimeSlotRequirement>`
followed by a section-id comparison). -/
def isPinFor (sectionId : String) (r : Requirement) : Bool :=
  match r with
  | .sectionTimeSlotReq pinSec _ => decide (pinSec.id = sectionId)
  | _ => false

/-- Requirement::isSatisfied for the three subclasses (`Models.cpp` lines
215-243, 253-261, 271-302).  The section-pin variant inspects only the first
schedule section with the pinned id, exactly like the C++ early return. -/
def isSatisfied (r : Requirement) (schedule : Schedule) : Bool :=
  match r with
  | .timeSlotReq course reqSlot =>
      (getSectionsForCourse schedule course.code).any fun s =>
        (!reqSlot.hasDay || (s.timeSlot.hasDay && decide (s.timeSlot.day = reqSlot.day))) &&
        (!reqSlot.hasStartTime ||
          (s.timeSlot.hasStartTime &&
           decide (s.timeSlot.startHour = reqSlot.startHour) &&
           decide (s.timeSlot.startMinute = reqSlot.startMinute)))
  | .teacherReq course teacher =>
      (getSectionsForCourse schedule course.code).any fun s =>
        decide (s.teacher.id = teacher.id)
  | .sectionTimeSlotReq pinSec reqSlot =>
      match schedule.find? (fun s => decide (s.id = pinSec.id)) with
      | none => false
      | some s =>
        (!reqSlot.hasDay || (s.timeSlot.hasDay && decide (s.timeSlot.day = reqSlot.day))) &&
        (!reqSlot.hasStartTime ||
          (s.timeSlot.hasStartTime &&
           decide (s.timeSlot.startHour = reqSlot.startHour) &&
           decide (s.timeSlot.startMinute = reqSlot.startMinute)))

/-- Scheduler::areSchedulesEquivalent from `Scheduler.cpp` lines 488-533. -/
def areSchedulesEquivalent (a b : Schedule) : Bool :=
  decide (a.length = b.length) &&
  a.all fun sa => b.any fun sb =>
    decide (sa.course.code = sb.course.code) &&
    decide (sa.teacher.id = sb.teacher.id) &&
    decide (sa.timeSlot.day = sb.timeSlot.day) &&
    decide (sa.timeSlot.startHour = sb.timeSlot.startHour) &&
    decide (sa.timeSlot.startMinute = sb.timeSlot.startMinute)

/-- Insertion step of the sort used to model `std::sort`. -/
def insertLe {α : Type} (le : α → α → Bool) (x : α) : List α → List α
  | [] => [x]
  | y :: ys => if le x y then x :: y :: ys else y :: insertLe le x ys

/-- Insertion sort.  `std::sort` with a strict comparator `lt` is modelled as
`sortBy (fun a b => !(lt b a))`; the C++ result is only specified up to tie
order, and every concrete input in this file has pairwise-distinct keys. -/
def sortBy {α : Type} (le : α → α → Bool) : List α → List α
  | [] => []
  | x :: xs => insertLe le x (sortBy le xs)

/-- All ways of inserting one element into a list (used to enumerate
permutations). -/
def insertEverywhere {α : Type} (x : α) : List α → List (List α)
  | [] => [[x]]
  | y :: ys => (x :: y :: ys) :: (insertEverywhere x ys).map (fun l => y :: l)

/-- All `n!` arrangements of a list (duplicates repeated). -/
def allPerms {α : Type} : List α → List (List α)
  | [] => [[]]
  | x :: xs => (allPerms xs).flatMap (insertEverywhere x)

/-- Byte-wise (equivalently, code-point-wise) comparison of char lists:
the order of C++ `std::string::operator<` on the labels in play. -/
def charListLt : List Char → List Char → Bool
  | [], [] => false
  | [], _ :: _ => true
  | _ :: _, [] => false
  | c :: cs, d :: ds =>
      if c.toNat < d.toNat then true
      else if d.toNat < c.toNat then false
      else charListLt cs ds

/-- Strict `std::string` comparison. -/
def strLtB (a b : String) : Bool := charListLt a.data b.data

/-- PQ-tree node (`PQTree.hpp`): leaf, P-node or Q-node with ordered
children; the visualization coordinates take part in no claim. -/
inductive PQNode where
  | leaf (label : String)
  | pNode (label : String) (children : List PQNode)
  | qNode (label : String) (children : List PQNode)

/-- The sort applied by `std::sort(flat.begin(), flat.end())` before the
`next_permutation` loop (lexicographic string order). -/
def sortStrings (l : List String) : List String :=
  sortBy (fun a b => !strLtB b a) l

mutual
/-- PQTree::generatePermutations from `PQTree.cpp` lines 129-190, at the
call pattern used by the tree (the `current` accumulator is `{}` at every
call site, so it is dropped).  For a P-node the source sorts the flattened
label list and emits one copy of each distinct rearrangement via a
`std::next_permutation` do-while loop; that standard-library loop is modelled
by its contract, `(allPerms (sorted flat)).dedup` (each distinct
permutation exactly once; only the emission order differs, and no stated
property depends on it). -/
def generatePermutations : PQNode → List (List String)
  | .leaf label => [[label]]
  | .pNode _ children =>
      let flat := (childFrontiersCat children).flatten
      (allPerms (sortStrings flat)).dedup
  | .qNode _ children =>
      let forward := (childFrontiersCat children).flatten
      let rev := forward.reverse
      if forward = rev then [forward] else [forward, rev]
/-- The `allChildrenLabels` accumulation shared by the P and Q branches:
concatenation of every recursive result of every child, in child order. -/
def childFrontiersCat : List PQNode → List (List String)
  | [] => []
  | c :: cs => generatePermutations c ++ childFrontiersCat cs
end

/-- PQTree from `PQTree.hpp`: a nullable root. -/
structure PQTree where
  root : Option PQNode

/-- Strict lexicographic order on `std::vector<std::string>`
(`std::lexicographical_compare` over `std::string::operator<`). -/
def listLt : List String → List String → Bool
  | [], [] => false
  | [], _ :: _ => true
  | _ :: _, [] => false
  | a :: as, b :: bs => if strLtB a b then true else if strLtB b a then false else listLt as bs

/-- Ordered-set insertion: the effect of inserting one element into the
`std::set<std::vector<std::string>>` used by PQTree::getFrontiers. -/
def setInsert : List (List String) → List String → List (List String)
  | [], x => [x]
  | y :: ys, x =>
      if listLt x y then x :: y :: ys
      else if listLt y x then y :: setInsert ys x
      else y :: ys

/-- PQTree::getFrontiers from `PQTree.cpp` lines 117-126: generate, then
de-duplicate through an ordered set and return the set contents. -/
def getFrontiers (t : PQTree) : List (List String) :=
  match t.root with
  | none => []
  | some r => (generatePermutations r).foldl setInsert []

/-- Strict comparator passed to `std::sort` in PQTree::buildTimeOrderedTree
(day, then start hour, ascending). -/
def secOrderLt (a b : Section) : Bool :=
  decide (a.timeSlot.day.toNat < b.timeSlot.day.toNat) ||
  (decide (a.timeSlot.day = b.timeSlot.day) &&
   decide (a.timeSlot.startHour < b.timeSlot.startHour))

/-- Canonical leaf label `"<courseCode> (<teacherName>, <timeSlot.toString()>)"`
built in PQTree::buildTimeOrderedTree and re-built in Scheduler::generateSchedule. -/
def sectionLabel (s : Section) : String :=
  s.course.code ++ " (" ++ s.teacher.name ++ ", " ++ s.timeSlot.render ++ ")"

/-- PQTree::buildTimeOrderedTree from `PQTree.cpp` lines 71-91. -/
def buildTimeOrderedTree (secs : List Section) : PQTree :=
  let sorted := sortBy (fun a b => !secOrderLt b a) secs
  ⟨some (.qNode ("TimeOrdered") (sorted.map fun s => PQNode.leaf (sectionLabel s)))⟩

/-- The five weekdays iterated by Scheduler::tryCreateScheduleWithTimes, in
source order. -/
def weekdays : List Day :=
  [.monday, .tuesday, .wednesday, .thursday, .friday]

/-- Initial per-day watermark map: the five weekdays start at `8 * 60`;
`std::map::operator[]` value-initializes any other key (only `UNASSIGNED`
can occur, via a pin without a day) to 0. -/
def initialWatermark : Day → Int :=
  fun d => if d = Day.unassigned then 0 else 480

/-- C++ `INT_MAX`, the seed of the earliest-end-time scan. -/
def intMax : Int := 2147483647

/-- Sections selected by the permutation: `sections[idx]` for each index.
Callers construct only in-range indices; an out-of-range index (undefined
behaviour in C++) is dropped. -/
def selectedSections (secs : List Section) (perm : List Nat) : List Section :=
  perm.filterMap fun idx => secs.get? idx

/-- Test whether some registered requirement is a SectionTimeSlotRequirement
naming this section id (the partition test of tryCreateScheduleWithTimes). -/
def hasSpecificRequirement (reqs : List Requirement) (s : Section) : Bool :=
  reqs.any (isPinFor s.id)

/-- Pinned-section placement loop of tryCreateScheduleWithTimes
(`Scheduler.cpp` lines 186-223): for each section, find the first matching
SectionTimeSlotRequirement, raise that day's watermark to
`max(watermark, requiredStart + duration)` and append a copy of the section
carrying the required day/time and the original duration.  A section with no
matching requirement (impossible for the filtered input) is skipped, exactly
like the C++ inner loop that finds nothing. -/
def placePinned (reqs : List Requirement) :
    List Section → List Section → (Day → Int) → List Section × (Day → Int)
  | [], acc, w => (acc, w)
  | s :: rest, acc, w =>
      match reqs.find? (isPinFor s.id) with
      | some (.sectionTimeSlotReq _ reqSlot) =>
          let day := reqSlot.day
          let startTime := reqSlot.startHour * 60 + reqSlot.startMinute
          let endTime := startTime + s.timeSlot.durationMinutes
          let w1 := fun d => if d = day then max (w day) endTime else w d
          let newSlot : TimeSlot :=
            ⟨day, reqSlot.startHour, reqSlot.startMinute, s.timeSlot.durationMinutes⟩
          placePinned reqs rest (acc ++ [{ s with timeSlot := newSlot }]) w1
      | _ => placePinned reqs rest acc w

/-- Day-selection scan of tryCreateScheduleWithTimes (`Scheduler.cpp` lines
234-243): `selectedDay = MONDAY; earliest = INT_MAX;` then one pass over the
weekdays keeping the first strict improvement. -/
def codeSelectDay (w : Day → Int) : Day :=
  (weekdays.foldl (fun p d => if w d < p.2 then (d, w d) else p) (Day.monday, intMax)).1

/-- Flexible-section placement loop of tryCreateScheduleWithTimes
(`Scheduler.cpp` lines 233-274): place each section on the selected day at
that day's watermark (split into hour/minute with C++ truncating division)
and advance the watermark by its duration. -/
def placeFlexible :
    List Section → List Section → (Day → Int) → List Section × (Day → Int)
  | [], acc, w => (acc, w)
  | s :: rest, acc, w =>
      let selectedDay := codeSelectDay w
      let startTime := w selectedDay
      let endTime := startTime + s.timeSlot.durationMinutes
      let w1 := fun d => if d = selectedDay then endTime else w d
      let newSlot : TimeSlot :=
        ⟨selectedDay, Int.tdiv startTime 60, Int.tmod startTime 60, s.timeSlot.durationMinutes⟩
      placeFlexible rest (acc ++ [{ s with timeSlot := newSlot }]) w1

/-- Duration-descending sort of the flexible sections (`std::sort` with
comparator `a.duration > b.duration`, modelled under the negated flipped
comparator). -/
def sortFlex (l : List Section) : List Section :=
  sortBy (fun a b => decide (b.timeSlot.durationMinutes ≤ a.timeSlot.durationMinutes)) l

/-- Scheduler::tryCreateScheduleWithTimes from `Scheduler.cpp` lines 143-283.
The `sectionsById` map built at the top of the C++ function is never read
and is omitted.  Returns the empty schedule when the assembled schedule has
conflicts. -/
def tryCreateScheduleWithTimes (secs : List Section) (reqs : List Requirement)
    (perm : List Nat) : Schedule :=
  let selected := selectedSections secs perm
  let pinnedL := selected.filter fun s => hasSpecificRequirement reqs s
  let flexL := selected.filter fun s => !hasSpecificRequirement reqs s
  let p1 := placePinned reqs pinnedL [] initialWatermark
  let p2 := placeFlexible (sortFlex flexL) p1.1 p1.2
  if hasConflicts p2.1 then [] else p2.1

/-- Scheduler::findSatisfyingSchedule from `Scheduler.cpp` lines 319-348,
returning the pair (return value, new `currentSchedule`); the caller
(`generateSchedule`) nulls `currentSchedule` beforehand, so an empty pool
leaves it `none`. -/
def findSatisfyingSchedule (pool : List Schedule) (reqs : List Requirement) :
    Bool × Option Schedule :=
  match pool.find? (fun s => reqs.all fun r => isSatisfied r s) with
  | some s => (true, some s)
  | none =>
      match pool with
      | [] => (false, none)
      | s :: _ => (false, some s)

/-- One variant schedule built by Scheduler::createScheduleVariations
(`Scheduler.cpp` lines 606-670): variant 1 moves the flexible section one day
forward at the same time, variant 2 two days forward at 09:00, variant 3
(the final `case`) three days forward at 14:00; the first schedule entry with
the section's id is erased and the re-timed copy appended. -/
def mkVariant (base : Schedule) (fs : Section) (variant : Nat) : Schedule :=
  let cur := fs.timeSlot
  let nd :=
    match variant with
    | 1 => (dayOfNat ((cur.day.toNat + 1) % 5), cur.startHour, cur.startMinute)
    | 2 => (dayOfNat ((cur.day.toNat + 2) % 5), (9 : Int), (0 : Int))
    | _ => (dayOfNat ((cur.day.toNat + 3) % 5), (14 : Int), (0 : Int))
  let newSec : Section := { fs with timeSlot := ⟨nd.1, nd.2.1, nd.2.2, cur.durationMinutes⟩ }
  match base.findIdx? (fun t => decide (t.id = fs.id)) with
  | some i => base.eraseIdx i ++ [newSec]
  | none => base

/-- Guarded insertion of one variant (`Scheduler.cpp` lines 672-687): keep the
pool unless the variant is conflict-free and not equivalent to any pool entry. -/
def addVariantIfFresh (pool : List Schedule) (n : Schedule) : List Schedule :=
  if !hasConflicts n then
    if pool.any (fun e => areSchedulesEquivalent n e) then pool else pool ++ [n]
  else pool

/-- Scheduler::createScheduleVariations from `Scheduler.cpp` lines 577-690:
early return when every base section is pinned, otherwise the nested
for-each-flexible-section / for-each-variant loops. -/
def createScheduleVariations (reqs : List Requirement) (base : Schedule)
    (pool : List Schedule) : List Schedule :=
  let flexible := base.filter fun s => !hasSpecificRequirement reqs s
  if flexible.isEmpty then pool
  else
    flexible.foldl
      (fun pl fs => [1, 2, 3].foldl (fun pl2 v => addVariantIfFresh pl2 (mkVariant base fs v)) pl)
      pool

/-- Label test of the frontier-to-indices mapping in Scheduler::generateSchedule
(`label == sectionLabel || label == "Leaf: " + sectionLabel`). -/
def labelMatches (lbl : String) (s : Section) : Bool :=
  decide (lbl = sectionLabel s) || decide (lbl = "Leaf: " ++ sectionLabel s)

/-- Frontier-to-indices mapping of Scheduler::generateSchedule (`Scheduler.cpp`
lines 66-81): each label is looked up by scanning the section list and
taking the first index whose canonical label matches; unmatched labels
contribute nothing. -/
def mapLabelsToIndices (secs : List Section) (labels : List String) : List Nat :=
  labels.filterMap fun lbl =>
    (List.range secs.length).find? fun i =>
      match secs.get? i with
      | some s => labelMatches lbl s
      | none => false

/-- Body of the per-frontier loop of Scheduler::generateSchedule
(`Scheduler.cpp` lines 65-97): skip frontiers that do not fully map, build the
base schedule, and when it is non-empty append it (with no duplicate check)
and run the variation pass. -/
def processPermutation (secs : List Section) (reqs : List Requirement)
    (pool : List Schedule) (labels : List String) : List Schedule :=
  let idxs := mapLabelsToIndices secs labels
  if idxs.length = labels.length then
    let base := tryCreateScheduleWithTimes secs reqs idxs
    if 0 < base.length then createScheduleVariations reqs base (pool ++ [base])
    else pool
  else pool

/-- Scheduler::generateSchedule from `Scheduler.cpp` lines 49-116, returning
(return value, `possibleSchedules`, `currentSchedule`).  The `std::cout`
debug printing has no effect on the result and is omitted. -/
def generateSchedule (secs : List Section) (reqs : List Requirement) :
    Bool × List Schedule × Option Schedule :=
  let tree := buildTimeOrderedTree secs
  let perms := getFrontiers tree
  let pool := perms.foldl (processPermutation secs reqs) []
  let fs := findSatisfyingSchedule pool reqs
  (fs.1, pool, fs.2)

/-- The day/time a section would be pinned to: its first matching
SectionTimeSlotRequirement's day and start paired with the section's own
duration (the slot constructed by the pinned-placement loop). -/
def pinnedSlotOf (reqs : List Requirement) (s : Section) : Option TimeSlot :=
  match reqs.find? (isPinFor s.id) with
  | some (.sectionTimeSlotReq _ reqSlot) =>
      some ⟨reqSlot.day, reqSlot.startHour, reqSlot.startMinute, s.timeSlot.durationMinutes⟩
  | _ => none

/-- Specification-side day choice, following §4.3 step 5 of the spec: "pick
the weekday whose watermark is currently smallest (load-balancing tie-break:
earliest index wins ties)" — a plain minimum scan over the weekdays with no
sentinel, seeded with Monday. -/
def specSelectDay (w : Day → Int) : Day :=
  weekdays.foldl (fun best d => if w d < w best then d else best) Day.monday

/-- Specification-side flexible placement, following §4.3 step 5 of the
spec: "place the section starting at that watermark, advance the watermark by
its duration", returning only the placements it makes. -/
def specPlaceFlexible : List Section → (Day → Int) → List Section × (Day → Int)
  | [], w => ([], w)
  | s :: rest, w =>
      let d := specSelectDay w
      let start := w d
      let placed : Section :=
        { s with timeSlot := ⟨d, Int.tdiv start 60, Int.tmod start 60, s.timeSlot.durationMinutes⟩ }
      let next := specPlaceFlexible rest fun x =>
        if x = d then start + s.timeSlot.durationMinutes else w x
      (placed :: next.1, next.2)

/-- Specification-side slot for one variation, following the claim: day
shifted forward by k modulo the 5 weekdays, with the same time for k = 1,
fixed 09:00 for k = 2 and fixed 14:00 for k = 3, always keeping the duration. -/
def specVariantSlot (ts : TimeSlot) : Nat → TimeSlot
  | 1 => ⟨dayOfNat ((ts.day.toNat + 1) % 5), ts.startHour, ts.startMinute, ts.durationMinutes⟩
  | 2 => ⟨dayOfNat ((ts.day.toNat + 2) % 5), 9, 0, ts.durationMinutes⟩
  | _ => ⟨dayOfNat ((ts.day.toNat + 3) % 5), 14, 0, ts.durationMinutes⟩

/-- Removal of the first schedule entry carrying a given section id. -/
def removeFirstById : Schedule → String → Schedule
  | [], _ => []
  | t :: ts, i => if t.id = i then ts else t :: removeFirstById ts i

/-- Specification-side reassignment of one section inside a base schedule:
the first entry with the section's id is dropped and the re-timed copy of the
section is appended. -/
def specVariant (base : Schedule) (fs : Section) (k : Nat) : Schedule :=
  removeFirstById base fs.id ++ [{ fs with timeSlot := specVariantSlot fs.timeSlot k }]

/-- Specification-side pool insertion, following the claim: the candidate is
added exactly when it has no conflicts and is not equivalent to any schedule
already in the pool. -/
def specAddVariant (pool : List Schedule) (n : Schedule) : List Schedule :=
  if hasConflicts n = false ∧ ∀ e ∈ pool, areSchedulesEquivalent n e = false
  then pool ++ [n] else pool

mutual
/-- Flattened leaf-label sequence of a node (left-to-right leaf order), the
notion the specification's frontier description is phrased in. -/
def flattenLeaves : PQNode → List String
  | .leaf label => [label]
  | .pNode _ children => flattenLeavesCat children
  | .qNode _ children => flattenLeavesCat children
/-- Concatenated leaf sequences of a child list. -/
def flattenLeavesCat : List PQNode → List String
  | [] => []
  | c :: cs => flattenLeaves c ++ flattenLeavesCat cs
end

/-! Concrete entities used to instantiate the theorems below. -/

/-- Example teacher `t`. -/
def exTeacherT : Teacher := ⟨"t", "t"⟩

/-- Example teacher `u`. -/
def exTeacherU : Teacher := ⟨"u", "u"⟩

/-- Example course `A`. -/
def exCourseA : Course := ⟨"A", "A", 3⟩

/-- Example course `B`. -/
def exCourseB : Course := ⟨"B", "B", 3⟩

/-- Example section of course A, teacher t, initially Monday 9:00, 90 min. -/
def exSecA : Section := ⟨"sA", exCourseA, exTeacherT, ⟨.monday, 9, 0, 90⟩⟩

/-- Example section of course B, teacher u, initially Monday 10:00, 60 min. -/
def exSecB : Section := ⟨"sB", exCourseB, exTeacherU, ⟨.monday, 10, 0, 60⟩⟩

/-- Example section of course B taught by teacher t (shares exSecA's teacher). -/
def exSecC : Section := ⟨"sC", exCourseB, exTeacherT, ⟨.monday, 10, 0, 60⟩⟩

/-- Pin requirement: section `sA` at Monday 09:00. -/
def exPin : Requirement := .sectionTimeSlotReq exSecA ⟨.monday, 9, 0, 90⟩

/-- Course-level teacher requirement: course A taught by teacher t. -/
def exTeachReq : Requirement := .teacherReq exCourseA exTeacherT

/-- Two same-teacher sections with overlapping Monday slots. -/
def exConf1 : Section := ⟨"c1", exCourseA, exTeacherT, ⟨.monday, 9, 0, 60⟩⟩

/-- Second overlapping section (Monday 9:30, 60 min, same teacher). -/
def exConf2 : Section := ⟨"c2", exCourseB, exTeacherT, ⟨.monday, 9, 30, 60⟩⟩

/-! Generic facts about the sorting and permutation-enumeration helpers. -/

theorem insertLe_perm {α : Type} (le : α → α → Bool) (x : α) (l : List α) :
    (insertLe le x l).Perm (x :: l) := by
  induction l with
  | nil => exact List.Perm.refl _
  | cons y ys ih =>
      unfold insertLe
      by_cases h : le x y = true
      · rw [if_pos h]
      · rw [if_neg h]
        exact (ih.cons y).trans (List.Perm.swap x y ys)

theorem sortBy_perm {α : Type} (le : α → α → Bool) (l : List α) :
    (sortBy le l).Perm l := by
  induction l with
  | nil => exact List.Perm.refl _
  | cons x xs ih => exact (insertLe_perm le x (sortBy le xs)).trans (ih.cons x)

theorem pairwise_insertLe {α : Type} {le : α → α → Bool}
    (htrans : ∀ a b c, le a b = true → le b c = true → le a c = true)
    (htot : ∀ a b, le a b = true ∨ le b a = true)
    {x : α} {l : List α} (hp : List.Pairwise (fun a b => le a b = true) l) :
    List.Pairwise (fun a b => le a b = true) (insertLe le x l) := by
  induction l with
  | nil => simp [insertLe]
  | cons y ys ih =>
      rcases List.pairwise_cons.mp hp with ⟨hy, hys⟩
      unfold insertLe
      by_cases h : le x y = true
      · rw [if_pos h]
        refine List.pairwise_cons.mpr ⟨?_, hp⟩
        intro z hz
        rcases List.mem_cons.mp hz with rfl | hz
        · exact h
        · exact htrans x y z h (hy z hz)
      · rw [if_neg h]
        refine List.pairwise_cons.mpr ⟨?_, ih hys⟩
        intro z hz
        have hz2 := ((insertLe_perm le x ys).mem_iff).mp hz
        rcases List.mem_cons.mp hz2 with hzx | hz2
        · rcases htot x y with hh | hh
          · exact absurd hh h
          · exact hzx ▸ hh
        · exact hy z hz2

theorem sortBy_pairwise {α : Type} {le : α → α → Bool}
    (htrans : ∀ a b c, le a b = true → le b c = true → le a c = true)
    (htot : ∀ a b, le a b = true ∨ le b a = true) (l : List α) :
    List.Pairwise (fun a b => le a b = true) (sortBy le l) := by
  induction l with
  | nil => simp [sortBy]
  | cons x xs ih => exact pairwise_insertLe htrans htot ih

theorem length_insertEverywhere {α : Type} (x : α) (l : List α) :
    (insertEverywhere x l).length = l.length + 1 := by
  induction l with
  | nil => rfl
  | cons y ys ih => simp [insertEverywhere, ih]

theorem mem_insertEverywhere {α : Type} {a : List α} {x : α} {l : List α} :
    a ∈ insertEverywhere x l ↔ ∃ l1 l2, l = l1 ++ l2 ∧ a = l1 ++ x :: l2 := by
  induction l generalizing a with
  | nil =>
      constructor
      · intro h
        simp only [insertEverywhere, List.mem_singleton] at h
        exact ⟨[], [], rfl, by simp [h]⟩
      · rintro ⟨l1, l2, h1, rfl⟩
        have h1a : l1 = [] := by
          cases l1 with
          | nil => rfl
          | cons p ps => simp at h1
        subst h1a
        simp at h1
        subst h1
        simp [insertEverywhere]
  | cons y ys ih =>
      constructor
      · intro h
        simp only [insertEverywhere, List.mem_cons, List.mem_map] at h
        rcases h with rfl | ⟨b, hb, rfl⟩
        · exact ⟨[], y :: ys, rfl, rfl⟩
        · rcases ih.mp hb with ⟨l1, l2, rfl, rfl⟩
          exact ⟨y :: l1, l2, rfl, rfl⟩
      · rintro ⟨l1, l2, h1, rfl⟩
        cases l1 with
        | nil =>
            simp only [List.nil_append] at h1 ⊢
            subst h1
            simp [insertEverywhere]
        | cons p ps =>
            simp only [List.cons_append, List.cons.injEq] at h1
            rcases h1 with ⟨rfl, h1⟩
            simp only [insertEverywhere, List.cons_append, List.mem_cons, List.mem_map]
            right
            exact ⟨ps ++ x :: l2, ih.mpr ⟨ps, l2, h1, rfl⟩, rfl⟩

theorem perm_of_mem_insertEverywhere {α : Type} {a : List α} {x : α} {l : List α}
    (h : a ∈ insertEverywhere x l) : a.Perm (x :: l) := by
  rcases mem_insertEverywhere.mp h with ⟨l1, l2, rfl, rfl⟩
  exact List.perm_middle

theorem mem_allPerms {α : Type} [DecidableEq α] {a l : List α} :
    a ∈ allPerms l ↔ a.Perm l := by
  induction l generalizing a with
  | nil => simp [allPerms, List.perm_nil]
  | cons x xs ih =>
      simp only [allPerms, List.mem_flatMap]
      constructor
      · rintro ⟨p, hp, hmem⟩
        exact (perm_of_mem_insertEverywhere hmem).trans ((ih.mp hp).cons x)
      · intro h
        have hx : x ∈ a := h.mem_iff.mpr (List.mem_cons_self x xs)
        rcases List.append_of_mem hx with ⟨s, t, rfl⟩
        have h2 : (s ++ t).Perm xs :=
          (List.perm_middle.symm.trans h).cons_inv
        exact ⟨s ++ t, ih.mpr h2, mem_insertEverywhere.mpr ⟨s, t, rfl, rfl⟩⟩

theorem sum_of_const {l : List Nat} {c : Nat} (h : ∀ y ∈ l, y = c) :
    l.sum = l.length * c := by
  induction l with
  | nil => simp
  | cons a t ih =>
      have ha := h a (List.mem_cons_self a t)
      have ht := ih fun y hy => h y (List.mem_cons_of_mem a hy)
      simp [ha, ht, Nat.succ_mul, Nat.add_comm]

theorem length_allPerms {α : Type} [DecidableEq α] (l : List α) :
    (allPerms l).length = Nat.factorial l.length := by
  induction l with
  | nil => rfl
  | cons x xs ih =>
      have hconst : ∀ y ∈ (allPerms xs).map (List.length ∘ insertEverywhere x),
          y = xs.length + 1 := by
        intro y hy
        rcases List.mem_map.mp hy with ⟨p, hp, rfl⟩
        have hlen : p.length = xs.length := (mem_allPerms.mp hp).length_eq
        simp [Function.comp, length_insertEverywhere, hlen]
      calc (allPerms (x :: xs)).length
          = ((allPerms xs).map (List.length ∘ insertEverywhere x)).sum := by
            rw [show allPerms (x :: xs) = (allPerms xs).flatMap (insertEverywhere x) from rfl,
              List.length_flatMap]
        _ = ((allPerms xs).map (List.length ∘ insertEverywhere x)).length * (xs.length + 1) :=
            sum_of_const hconst
        _ = Nat.factorial xs.length * (xs.length + 1) := by simp [ih]
        _ = Nat.factorial (x :: xs).length := by
            simp [List.length_cons, Nat.factorial_succ, Nat.mul_comm]

theorem erase_of_mem_insertEverywhere {α : Type} [DecidableEq α] {x : α} {l a : List α}
    (hx : x ∉ l) (h : a ∈ insertEverywhere x l) : a.erase x = l := by
  induction l generalizing a with
  | nil =>
      simp only [insertEverywhere, List.mem_singleton] at h
      simp [h]
  | cons y ys ih =>
      have hxy : x ≠ y := fun hh => hx (hh ▸ List.mem_cons_self y ys)
      have hxys : x ∉ ys := fun hh => hx (List.mem_cons_of_mem y hh)
      simp only [insertEverywhere, List.mem_cons, List.mem_map] at h
      rcases h with rfl | ⟨b, hb, rfl⟩
      · exact List.erase_cons_head x (y :: ys)
      · rw [List.erase_cons_tail (by simp [hxy.symm])]
        rw [ih hxys hb]

theorem x_mem_of_mem_insertEverywhere {α : Type} {x : α} {l a : List α}
    (h : a ∈ insertEverywhere x l) : x ∈ a := by
  rcases mem_insertEverywhere.mp h with ⟨l1, l2, rfl, rfl⟩
  exact List.mem_append.mpr (Or.inr (List.mem_cons_self x l2))

theorem nodup_insertEverywhere {α : Type} {x : α} {l : List α} (hx : x ∉ l) :
    (insertEverywhere x l).Nodup := by
  induction l with
  | nil => simp [insertEverywhere]
  | cons y ys ih =>
      have hxy : x ≠ y := fun hh => hx (hh ▸ List.mem_cons_self y ys)
      have hxys : x ∉ ys := fun hh => hx (List.mem_cons_of_mem y hh)
      refine List.nodup_cons.mpr ⟨?_, ?_⟩
      · intro hmem
        rcases List.mem_map.mp hmem with ⟨b, _, hb2⟩
        injection hb2 with h1 h2
        exact hxy h1.symm
      · exact List.Nodup.map List.cons_injective (ih hxys)

theorem flatMap_insertEverywhere_nodup {α : Type} [DecidableEq α] {x : α}
    (ps : List (List α)) (hnd : ps.Nodup)
    (hmem : ∀ p ∈ ps, x ∉ p) :
    (ps.flatMap (insertEverywhere x)).Nodup := by
  induction ps with
  | nil => simp
  | cons p rest ih =>
      rcases List.nodup_cons.mp hnd with ⟨hp_not, hrest⟩
      have hxp : x ∉ p := hmem p (List.mem_cons_self p rest)
      simp only [List.flatMap_cons]
      refine List.nodup_append.mpr ⟨nodup_insertEverywhere hxp, ?_, ?_⟩
      · exact ih hrest fun q hq => hmem q (List.mem_cons_of_mem p hq)
      · intro a ha hb
        rcases List.mem_flatMap.mp hb with ⟨q, hq, haq⟩
        have hxq : x ∉ q := hmem q (List.mem_cons_of_mem p hq)
        have e1 : a.erase x = p := erase_of_mem_insertEverywhere hxp ha
        have e2 : a.erase x = q := erase_of_mem_insertEverywhere hxq haq
        exact hp_not (e1 ▸ e2 ▸ hq)

theorem allPerms_nodup {α : Type} [DecidableEq α] {l : List α} (h : l.Nodup) :
    (allPerms l).Nodup := by
  induction l with
  | nil => simp [allPerms]
  | cons x xs ih =>
      rcases List.nodup_cons.mp h with ⟨hx, hxs⟩
      exact flatMap_insertEverywhere_nodup (allPerms xs) (ih hxs)
        fun p hp => fun hmem => hx ((mem_allPerms.mp hp).mem_iff.mp hmem)

/-! Conflict-predicate structure. -/

theorem hasConflicts_eq_false_iff (l : Schedule) :
    hasConflicts l = false ↔
      List.Pairwise (fun a b => sectionsConflict a b = false) l := by
  induction l with
  | nil => simp [hasConflicts]
  | cons s rest ih =>
      rw [List.pairwise_cons, ← ih]
      show (rest.any (sectionsConflict s) || hasConflicts rest) = false ↔ _
      rw [Bool.or_eq_false_iff, List.any_eq_false]
      constructor
      · rintro ⟨h1, h2⟩
        exact ⟨fun a ha => by simpa using h1 a ha, h2⟩
      · rintro ⟨h1, h2⟩
        exact ⟨fun a ha => by simpa using h1 a ha, h2⟩

/-! Claim C1. -/

/-- C1: findSatisfyingSchedule returns true exactly when some candidate in
the pool satisfies every registered requirement; when it does,
currentSchedule becomes the first such candidate in pool order, and when it
returns false currentSchedule becomes the first pool entry (none when the
pool is empty). -/
theorem c1_findSatisfyingSchedule (pool : List Schedule) (reqs : List Requirement) :
    ((findSatisfyingSchedule pool reqs).1 = true ↔
      ∃ s ∈ pool, ∀ r ∈ reqs, isSatisfied r s = true) ∧
    ((findSatisfyingSchedule pool reqs).1 = true →
      ∃ l1 s l2, pool = l1 ++ s :: l2 ∧
        (findSatisfyingSchedule pool reqs).2 = some s ∧
        (∀ r ∈ reqs, isSatisfied r s = true) ∧
        ∀ t ∈ l1, ¬ ∀ r ∈ reqs, isSatisfied r t = true) ∧
    ((findSatisfyingSchedule pool reqs).1 = false →
      (findSatisfyingSchedule pool reqs).2 = pool.head?) := by
  unfold findSatisfyingSchedule
  cases h : pool.find? (fun s => reqs.all fun r => isSatisfied r s) with
  | some s =>
      rcases List.find?_eq_some.mp h with ⟨hs, as, bs, hpool, hpre⟩
      refine ⟨?_, ?_, ?_⟩
      · constructor
        · intro _
          exact ⟨s, List.mem_of_find?_eq_some h, List.all_eq_true.mp hs⟩
        · intro _
          rfl
      · intro _
        refine ⟨as, s, bs, hpool, rfl, List.all_eq_true.mp hs, ?_⟩
        intro t ht hc
        have := hpre t ht
        rw [List.all_eq_true.mpr hc] at this
        simp at this
      · intro hfalse
        simp at hfalse
  | none =>
      have hnone := List.find?_eq_none.mp h
      cases pool with
      | nil =>
          refine ⟨?_, ?_, ?_⟩
          · simp
          · intro hh
            simp at hh
          · intro _
            rfl
      | cons p ps =>
          refine ⟨?_, ?_, ?_⟩
          · constructor
            · intro hh
              simp at hh
            · rintro ⟨s, hsmem, hsall⟩
              exact absurd (List.all_eq_true.mpr hsall) (by simpa using hnone s hsmem)
          · intro hh
            simp at hh
          · intro _
            rfl

/-- Witness for C1: a two-schedule pool whose second entry alone satisfies
the requirement; the engine reports success with that entry selected. -/
theorem c1_witness :
    ∃ l1 s l2, ([[exSecB], [exSecA]] : List Schedule) = l1 ++ s :: l2 ∧
      (findSatisfyingSchedule [[exSecB], [exSecA]] [exTeachReq]).2 = some s ∧
      (∀ r ∈ [exTeachReq], isSatisfied r s = true) ∧
      ∀ t ∈ l1, ¬ ∀ r ∈ [exTeachReq], isSatisfied r t = true :=
  (c1_findSatisfyingSchedule [[exSecB], [exSecA]] [exTeachReq]).2.1 (by decide)

/-! Claim C4. -/

/-- Characterisation of TimeSlot::overlaps for positive durations: both slots
fully assigned, same day, and the half-open minute ranges share a minute. -/
theorem overlaps_char {t o : TimeSlot}
    (ht : 0 < t.durationMinutes) (ho : 0 < o.durationMinutes) :
    t.overlaps o = true ↔
      (t.hasDay = true ∧ o.hasDay = true ∧ t.day = o.day ∧
       t.hasStartTime = true ∧ o.hasStartTime = true ∧
       ∃ m : Int,
         t.startHour * 60 + t.startMinute ≤ m ∧
         m < t.startHour * 60 + t.startMinute + t.durationMinutes ∧
         o.startHour * 60 + o.startMinute ≤ m ∧
         m < o.startHour * 60 + o.startMinute + o.durationMinutes) := by
  unfold TimeSlot.overlaps
  split_ifs with h1 h2 h3
  · simp only [Bool.false_eq_true, false_iff]
    rintro ⟨hd1, hd2, -⟩
    rw [hd1, hd2] at h1
    simp at h1
  · simp only [Bool.false_eq_true, false_iff]
    rintro ⟨-, -, hday, -⟩
    exact h2 hday
  · simp only [Bool.false_eq_true, false_iff]
    rintro ⟨-, -, -, hs1, hs2, -⟩
    rw [hs1, hs2] at h3
    simp at h3
  · have hx : t.hasDay = true ∧ o.hasDay = true := by
      constructor <;> revert h1 <;> cases t.hasDay <;> cases o.hasDay <;> simp
    have hy : t.hasStartTime = true ∧ o.hasStartTime = true := by
      constructor <;> revert h3 <;> cases t.hasStartTime <;> cases o.hasStartTime <;> simp
    rw [Bool.and_eq_true, decide_eq_true_eq, decide_eq_true_eq]
    constructor
    · rintro ⟨hlt1, hlt2⟩
      refine ⟨hx.1, hx.2, not_not.mp h2, hy.1, hy.2,
        max (t.startHour * 60 + t.startMinute) (o.startHour * 60 + o.startMinute),
        ?_, ?_, ?_, ?_⟩ <;> omega
    · rintro ⟨-, -, -, -, -, m, hm1, hm2, hm3, hm4⟩
      omega

/-- Characterisation of the hasConflicts pair test for positive durations. -/
theorem sectionsConflict_char {a b : Section}
    (ha : 0 < a.timeSlot.durationMinutes) (hb : 0 < b.timeSlot.durationMinutes) :
    sectionsConflict a b = true ↔
      (a.teacher.id = b.teacher.id ∧
       a.timeSlot.hasDay = true ∧ a.timeSlot.hasStartTime = true ∧
       b.timeSlot.hasDay = true ∧ b.timeSlot.hasStartTime = true ∧
       a.timeSlot.day = b.timeSlot.day ∧
       ∃ m : Int,
         a.timeSlot.startHour * 60 + a.timeSlot.startMinute ≤ m ∧
         m < a.timeSlot.startHour * 60 + a.timeSlot.startMinute + a.timeSlot.durationMinutes ∧
         b.timeSlot.startHour * 60 + b.timeSlot.startMinute ≤ m ∧
         m < b.timeSlot.startHour * 60 + b.timeSlot.startMinute + b.timeSlot.durationMinutes) := by
  unfold sectionsConflict
  rw [Bool.and_eq_true, Bool.and_eq_true, decide_eq_true_eq]
  rw [overlaps_char ha hb]
  constructor
  · rintro ⟨⟨hteach, hflags⟩, -, -, hday, hs1, hs2, hm⟩
    simp only [Bool.and_eq_true] at hflags
    exact ⟨hteach, hflags.1.1.1, hflags.1.1.2, hflags.1.2, hflags.2, hday, hm⟩
  · rintro ⟨hteach, hd1, hs1, hd2, hs2, hday, hm⟩
    exact ⟨⟨hteach, by simp [hd1, hs1, hd2, hs2]⟩, hd1, hd2, hday, hs1, hs2, hm⟩

/-- C4: Schedule::hasConflicts holds exactly when two distinct schedule
entries share a teacher id, are both fully day/time-assigned on the same
day, and their half-open minute ranges intersect; pairs with an unassigned
day or start never count.  (Durations are positive by the data-model
invariant.) -/
theorem c4_hasConflicts_iff (l : Schedule)
    (hpos : ∀ s ∈ l, 0 < s.timeSlot.durationMinutes) :
    hasConflicts l = true ↔
      ∃ i j : Fin l.length, i < j ∧
        (l.get i).teacher.id = (l.get j).teacher.id ∧
        (l.get i).timeSlot.hasDay = true ∧ (l.get i).timeSlot.hasStartTime = true ∧
        (l.get j).timeSlot.hasDay = true ∧ (l.get j).timeSlot.hasStartTime = true ∧
        (l.get i).timeSlot.day = (l.get j).timeSlot.day ∧
        ∃ m : Int,
          (l.get i).timeSlot.startHour * 60 + (l.get i).timeSlot.startMinute ≤ m ∧
          m < (l.get i).timeSlot.startHour * 60 + (l.get i).timeSlot.startMinute +
              (l.get i).timeSlot.durationMinutes ∧
          (l.get j).timeSlot.startHour * 60 + (l.get j).timeSlot.startMinute ≤ m ∧
          m < (l.get j).timeSlot.startHour * 60 + (l.get j).timeSlot.startMinute +
              (l.get j).timeSlot.durationMinutes := by
  have hchar : ∀ i j : Fin l.length, (sectionsConflict (l.get i) (l.get j) = true ↔
      ((l.get i).teacher.id = (l.get j).teacher.id ∧
       (l.get i).timeSlot.hasDay = true ∧ (l.get i).timeSlot.hasStartTime = true ∧
       (l.get j).timeSlot.hasDay = true ∧ (l.get j).timeSlot.hasStartTime = true ∧
       (l.get i).timeSlot.day = (l.get j).timeSlot.day ∧
       ∃ m : Int,
         (l.get i).timeSlot.startHour * 60 + (l.get i).timeSlot.startMinute ≤ m ∧
         m < (l.get i).timeSlot.startHour * 60 + (l.get i).timeSlot.startMinute +
             (l.get i).timeSlot.durationMinutes ∧
         (l.get j).timeSlot.startHour * 60 + (l.get j).timeSlot.startMinute ≤ m ∧
         m < (l.get j).timeSlot.startHour * 60 + (l.get j).timeSlot.startMinute +
             (l.get j).timeSlot.durationMinutes)) := by
    intro i j
    exact sectionsConflict_char (hpos _ (l.get_mem i.1 i.2)) (hpos _ (l.get_mem j.1 j.2))
  constructor
  · intro h
    have hnp : ¬ List.Pairwise (fun a b => sectionsConflict a b = false) l := by
      intro hp
      rw [(hasConflicts_eq_false_iff l).mpr hp] at h
      simp at h
    rw [List.pairwise_iff_get] at hnp
    push_neg at hnp
    rcases hnp with ⟨i, j, hij, hc⟩
    have hct : sectionsConflict (l.get i) (l.get j) = true := by
      cases hcc : sectionsConflict (l.get i) (l.get j) with
      | true => rfl
      | false => exact absurd hcc hc
    rcases (hchar i j).mp hct with ⟨h1, h2, h3, h4, h5, h6, m, hm⟩
    exact ⟨i, j, hij, h1, h2, h3, h4, h5, h6, m, hm⟩
  · rintro ⟨i, j, hij, hrest⟩
    cases hc : hasConflicts l with
    | true => rfl
    | false =>
        have hpair := (hasConflicts_eq_false_iff l).mp hc
        have := (List.pairwise_iff_get.mp hpair) i j hij
        rw [(hchar i j).mpr hrest] at this
        simp at this

/-- Witness for C4: two same-teacher Monday sections at 9:00-10:00 and
9:30-10:30 conflict, and the characterisation applies to them. -/
theorem c4_witness :
    (∀ s ∈ [exConf1, exConf2], 0 < s.timeSlot.durationMinutes) ∧
    (hasConflicts [exConf1, exConf2] = true ↔
      ∃ i j : Fin ([exConf1, exConf2] : Schedule).length, i < j ∧
        (([exConf1, exConf2] : Schedule).get i).teacher.id =
          (([exConf1, exConf2] : Schedule).get j).teacher.id ∧
        (([exConf1, exConf2] : Schedule).get i).timeSlot.hasDay = true ∧
        (([exConf1, exConf2] : Schedule).get i).timeSlot.hasStartTime = true ∧
        (([exConf1, exConf2] : Schedule).get j).timeSlot.hasDay = true ∧
        (([exConf1, exConf2] : Schedule).get j).timeSlot.hasStartTime = true ∧
        (([exConf1, exConf2] : Schedule).get i).timeSlot.day =
          (([exConf1, exConf2] : Schedule).get j).timeSlot.day ∧
        ∃ m : Int,
          (([exConf1, exConf2] : Schedule).get i).timeSlot.startHour * 60 +
              (([exConf1, exConf2] : Schedule).get i).timeSlot.startMinute ≤ m ∧
          m < (([exConf1, exConf2] : Schedule).get i).timeSlot.startHour * 60 +
              (([exConf1, exConf2] : Schedule).get i).timeSlot.startMinute +
              (([exConf1, exConf2] : Schedule).get i).timeSlot.durationMinutes ∧
          (([exConf1, exConf2] : Schedule).get j).timeSlot.startHour * 60 +
              (([exConf1, exConf2] : Schedule).get j).timeSlot.startMinute ≤ m ∧
          m < (([exConf1, exConf2] : Schedule).get j).timeSlot.startHour * 60 +
              (([exConf1, exConf2] : Schedule).get j).timeSlot.startMinute +
              (([exConf1, exConf2] : Schedule).get j).timeSlot.durationMinutes) :=
  ⟨by decide, c4_hasConflicts_iff [exConf1, exConf2] (by decide)⟩

/-! Claim C5. -/

/-- C5 counterexample: with no registered sections, buildTimeOrderedTree
still installs a (childless) Q-node root, so getFrontiers returns the
one-element list containing the empty frontier — not an empty list. -/
theorem c5_counterexample :
    getFrontiers (buildTimeOrderedTree []) ≠ [] ∧
    getFrontiers (buildTimeOrderedTree []) = [[]] := by decide

/-- C5 (amended): with an empty registered section list, getFrontiers on the
tree built by buildTimeOrderedTree returns the one-element list containing
the empty frontier; generateSchedule still returns false and
getAllPossibleSchedules is empty. -/
theorem c5_empty_sections (reqs : List Requirement) :
    getFrontiers (buildTimeOrderedTree []) = [[]] ∧
    (generateSchedule [] reqs).1 = false ∧
    (generateSchedule [] reqs).2.1 = [] := by
  exact ⟨by decide, rfl, rfl⟩

/-! Claim C3. -/

theorem childFrontiersCat_map_leaf (ls : List String) :
    childFrontiersCat (ls.map PQNode.leaf) = ls.map fun l => [l] := by
  induction ls with
  | nil => rfl
  | cons x xs ih =>
      show generatePermutations (PQNode.leaf x) ++ childFrontiersCat (xs.map PQNode.leaf) = _
      rw [ih]
      rfl

theorem flatten_map_singleton (ls : List String) :
    (ls.map fun l => [l]).flatten = ls := by
  induction ls with
  | nil => rfl
  | cons x xs ih => simp [ih]

theorem childFlatten_leaf (ls : List String) :
    (childFrontiersCat (ls.map PQNode.leaf)).flatten = ls := by
  rw [childFrontiersCat_map_leaf, flatten_map_singleton]

/-- C3 (amended): for a P-node whose children are k distinct-label leaves,
generatePermutations emits exactly k! orderings — every permutation of the
leaf-label sequence — before the tree-level set deduplication. -/
theorem c3_pnode_factorial (lbl : String) (ls : List String) (h : ls.Nodup) :
    (generatePermutations (.pNode lbl (ls.map PQNode.leaf))).length =
      Nat.factorial ls.length ∧
    ∀ o, o ∈ generatePermutations (.pNode lbl (ls.map PQNode.leaf)) ↔ o.Perm ls := by
  have hout : generatePermutations (.pNode lbl (ls.map PQNode.leaf)) =
      (allPerms (sortStrings ls)).dedup := by
    show (allPerms (sortStrings (childFrontiersCat (ls.map PQNode.leaf)).flatten)).dedup = _
    rw [childFlatten_leaf]
  have hperm : (sortStrings ls).Perm ls := sortBy_perm _ ls
  have hnd : (sortStrings ls).Nodup := (hperm.nodup_iff).mpr h
  have hded : (allPerms (sortStrings ls)).dedup = allPerms (sortStrings ls) :=
    List.dedup_eq_self.mpr (allPerms_nodup hnd)
  rw [hout, hded]
  refine ⟨?_, ?_⟩
  · rw [length_allPerms, hperm.length_eq]
  · intro o
    rw [mem_allPerms]
    exact ⟨fun hp => hp.trans hperm, fun hp => hp.trans hperm.symm⟩

/-- Witness for C3: three distinct leaf labels yield 3! = 6 orderings and
contain the permutation b,a,c. -/
theorem c3_witness :
    (generatePermutations (.pNode ("p") (["a", "b", "c"].map PQNode.leaf))).length =
      Nat.factorial 3 ∧
    ["b", "a", "c"] ∈ generatePermutations (.pNode ("p") (["a", "b", "c"].map PQNode.leaf)) :=
  ⟨(c3_pnode_factorial ("p") ["a", "b", "c"] (by decide)).1,
   ((c3_pnode_factorial ("p") ["a", "b", "c"] (by decide)).2 ["b", "a", "c"]).mpr (by decide)⟩

/-- C3 counterexample: a P-node with a single Q-node child over leaves a, b
has 2 distinct leaf labels but generatePermutations emits 6 orderings (of the
doubled label sequence), not 2! = 2, and the emitted orderings are not even
permutations of the flattened leaf sequence. -/
theorem c3_counterexample :
    (flattenLeaves (.pNode ("p") [.qNode ("q") [.leaf ("a"), .leaf ("b")]])).dedup.length = 2 ∧
    (generatePermutations (.pNode ("p") [.qNode ("q") [.leaf ("a"), .leaf ("b")]])).length = 6 ∧
    (generatePermutations (.pNode ("p") [.qNode ("q") [.leaf ("a"), .leaf ("b")]])).length ≠
      Nat.factorial 2 ∧
    ∃ o ∈ generatePermutations (.pNode ("p") [.qNode ("q") [.leaf ("a"), .leaf ("b")]]),
      ¬ o.Perm (flattenLeaves (.pNode ("p") [.qNode ("q") [.leaf ("a"), .leaf ("b")]])) := by
  decide

/-! Claim C2. -/

theorem charListLt_antisymm : ∀ {a b : List Char},
    charListLt a b = false → charListLt b a = false → a = b
  | [], [], _, _ => rfl
  | [], _ :: _, h1, _ => by simp [charListLt] at h1
  | _ :: _, [], _, h2 => by simp [charListLt] at h2
  | c :: cs, d :: ds, h1, h2 => by
      unfold charListLt at h1 h2
      by_cases hcd : c.toNat < d.toNat
      · rw [if_pos hcd] at h1
        exact absurd h1 (by simp)
      · by_cases hdc : d.toNat < c.toNat
        · rw [if_pos hdc] at h2
          exact absurd h2 (by simp)
        · have hnat : c.toNat = d.toNat := by omega
          have hceq : c = d := Char.eq_of_val_eq (UInt32.ext hnat)
          rw [if_neg hcd, if_neg hdc] at h1
          rw [if_neg hdc, if_neg hcd] at h2
          rw [hceq, charListLt_antisymm h1 h2]

theorem strLtB_antisymm {a b : String} (h1 : strLtB a b = false)
    (h2 : strLtB b a = false) : a = b :=
  String.ext (charListLt_antisymm h1 h2)

theorem listLt_antisymm : ∀ {u v : List String},
    listLt u v = false → listLt v u = false → u = v
  | [], [], _, _ => rfl
  | [], _ :: _, h1, _ => by simp [listLt] at h1
  | _ :: _, [], _, h2 => by simp [listLt] at h2
  | a :: as, b :: bs, h1, h2 => by
      unfold listLt at h1 h2
      by_cases hab : strLtB a b = true
      · rw [if_pos hab] at h1
        exact absurd h1 (by simp)
      · by_cases hba : strLtB b a = true
        · rw [if_pos hba] at h2
          exact absurd h2 (by simp)
        · have heq : a = b :=
            strLtB_antisymm (Bool.not_eq_true _ ▸ hab) (Bool.not_eq_true _ ▸ hba)
          rw [if_neg hab, if_neg hba] at h1
          rw [if_neg hba, if_neg hab] at h2
          rw [heq, listLt_antisymm h1 h2]

/-- C2 (amended): for a Q-node whose children are leaves, getFrontiers
returns exactly the forward child-label sequence and its reverse — at most 2
results, and exactly 1 precisely when the sequence is a palindrome — and
never any other ordering. -/
theorem c2_qnode_frontiers (lbl : String) (ls : List String) :
    (∀ o, o ∈ getFrontiers ⟨some (.qNode lbl (ls.map PQNode.leaf))⟩ ↔
      o = ls ∨ o = ls.reverse) ∧
    (getFrontiers ⟨some (.qNode lbl (ls.map PQNode.leaf))⟩).length ≤ 2 ∧
    ((getFrontiers ⟨some (.qNode lbl (ls.map PQNode.leaf))⟩).length = 1 ↔
      ls = ls.reverse) := by
  have hgen : generatePermutations (.qNode lbl (ls.map PQNode.leaf)) =
      if ls = ls.reverse then [ls] else [ls, ls.reverse] := by
    show (if (childFrontiersCat (ls.map PQNode.leaf)).flatten =
            (childFrontiersCat (ls.map PQNode.leaf)).flatten.reverse
          then [(childFrontiersCat (ls.map PQNode.leaf)).flatten]
          else [(childFrontiersCat (ls.map PQNode.leaf)).flatten,
                (childFrontiersCat (ls.map PQNode.leaf)).flatten.reverse]) = _
    rw [childFlatten_leaf]
  have hfr : getFrontiers ⟨some (.qNode lbl (ls.map PQNode.leaf))⟩ =
      (generatePermutations (.qNode lbl (ls.map PQNode.leaf))).foldl setInsert [] := rfl
  by_cases h : ls = ls.reverse
  · rw [hfr, hgen, if_pos h]
    have hres : List.foldl setInsert [] [ls] = [ls] := rfl
    rw [hres]
    refine ⟨?_, by simp, iff_of_true rfl h⟩
    intro o
    simp only [List.mem_singleton]
    constructor
    · intro ho
      exact Or.inl ho
    · rintro (rfl | rfl)
      · rfl
      · exact h.symm
  · rw [hfr, hgen, if_neg h]
    have hres : List.foldl setInsert [] [ls, ls.reverse] = setInsert [ls] ls.reverse := rfl
    rw [hres]
    unfold setInsert
    by_cases hlt : listLt ls.reverse ls = true
    · rw [if_pos hlt]
      refine ⟨?_, by simp, ?_⟩
      · intro o
        simp only [List.mem_cons, List.mem_singleton, List.not_mem_nil, or_false]
        tauto
      · exact iff_of_false (by simp) h
    · rw [if_neg hlt]
      by_cases hlt2 : listLt ls ls.reverse = true
      · rw [if_pos hlt2]
        have hres2 : ls :: setInsert [] ls.reverse = [ls, ls.reverse] := rfl
        rw [hres2]
        refine ⟨?_, by simp, ?_⟩
        · intro o
          simp
        · exact iff_of_false (by simp) h
      · exact absurd
          (listLt_antisymm (Bool.not_eq_true _ ▸ hlt2) (Bool.not_eq_true _ ▸ hlt)) h

/-- C2 counterexample: a Q-node whose single child is a P-node over leaves
a, b.  The flattened leaf order of the children is a, b, yet getFrontiers
returns an ordering (a, b, b, a) that is neither that sequence nor its
reverse — the claim fails for Q-nodes with non-leaf children. -/
theorem c2_counterexample :
    flattenLeaves (.qNode ("q") [.pNode ("p") [.leaf ("a"), .leaf ("b")]]) = ["a", "b"] ∧
    ∃ o ∈ getFrontiers ⟨some (.qNode ("q") [.pNode ("p") [.leaf ("a"), .leaf ("b")]])⟩,
      o ≠ ["a", "b"] ∧ o ≠ ["b", "a"] := by
  decide

/-! Claims C9 and C6: the variation pass. -/

theorem removeFirst_eq_eraseIdx (base : Schedule) (i : String) :
    ∀ k, base.findIdx? (fun t => decide (t.id = i)) = some k →
      removeFirstById base i = base.eraseIdx k := by
  induction base with
  | nil =>
      intro k hk
      simp at hk
  | cons t ts ih =>
      intro k hk
      rw [List.findIdx?_cons] at hk
      by_cases hti : t.id = i
      · rw [if_pos (by simp [hti])] at hk
        injection hk with hk0
        subst hk0
        unfold removeFirstById
        rw [if_pos hti]
        rfl
      · rw [if_neg (by simp [hti]), List.findIdx?_succ] at hk
        rcases Option.map_eq_some'.mp hk with ⟨k0, hk0, rfl⟩
        unfold removeFirstById
        rw [if_neg hti, ih k0 hk0]
        rfl

theorem findIdx?_isSome_of_exists (base : Schedule) (i : String)
    (h : ∃ t ∈ base, t.id = i) :
    ∃ k, base.findIdx? (fun t => decide (t.id = i)) = some k := by
  cases hfi : base.findIdx? (fun t => decide (t.id = i)) with
  | some k => exact ⟨k, rfl⟩
  | none =>
      rcases h with ⟨t, ht, hti⟩
      have := List.findIdx?_eq_none_iff.mp hfi t ht
      simp [hti] at this

theorem mkVariant_eq_specVariant (base : Schedule) (fs : Section)
    (h : ∃ t ∈ base, t.id = fs.id) (v : Nat) :
    mkVariant base fs v = specVariant base fs v := by
  rcases findIdx?_isSome_of_exists base fs.id h with ⟨k, hk⟩
  unfold mkVariant specVariant
  rw [hk, removeFirst_eq_eraseIdx base fs.id k hk]
  match v with
  | 0 => rfl
  | 1 => rfl
  | 2 => rfl
  | n + 3 => rfl

theorem addVariantIfFresh_eq_spec (pool : List Schedule) (n : Schedule) :
    addVariantIfFresh pool n = specAddVariant pool n := by
  unfold addVariantIfFresh specAddVariant
  by_cases hc : hasConflicts n = true
  · rw [hc]
    rw [if_neg (by simp [hc])]
    rfl
  · have hc2 : hasConflicts n = false := by simpa using hc
    rw [hc2]
    show (if (pool.any fun e => areSchedulesEquivalent n e) = true then pool else pool ++ [n]) = _
    by_cases hd : (pool.any fun e => areSchedulesEquivalent n e) = true
    · rw [if_pos hd, if_neg]
      rintro ⟨-, hall⟩
      rcases List.any_eq_true.mp hd with ⟨e, he, heq⟩
      rw [hall e he] at heq
      cases heq
    · rw [if_neg hd, if_pos]
      refine ⟨rfl, ?_⟩
      intro e he
      have := List.any_eq_false.mp (by simpa using hd) e he
      simpa using this

/-- Loop-flattening helper: the variation pass is the fold of the guarded
insertion over the three per-section candidates of each flexible section. -/
theorem createScheduleVariations_eq_foldl (reqs : List Requirement) (base : Schedule)
    (pool : List Schedule) :
    createScheduleVariations reqs base pool =
      ((base.filter fun s => !hasSpecificRequirement reqs s).flatMap
        fun fs => [mkVariant base fs 1, mkVariant base fs 2, mkVariant base fs 3]).foldl
        addVariantIfFresh pool := by
  unfold createScheduleVariations
  by_cases hemp : (base.filter fun s => !hasSpecificRequirement reqs s).isEmpty = true
  · rw [if_pos hemp]
    rw [List.isEmpty_iff.mp hemp]
    rfl
  · rw [if_neg hemp]
    generalize (base.filter fun s => !hasSpecificRequirement reqs s) = fl
    induction fl generalizing pool with
    | nil => rfl
    | cons fs rest ih =>
        show rest.foldl _ ([1, 2, 3].foldl
            (fun pl2 v => addVariantIfFresh pl2 (mkVariant base fs v)) pool) = _
        rw [ih]
        rfl

/-- C9: the variation pass generates, for each unpinned section of the base
schedule, exactly the three reassignments (day+1 same time, day+2 at 09:00,
day+3 at 14:00, duration kept), each replacing that section, and folds them
into the pool, adding a candidate exactly when it is conflict-free and not
equivalent to any schedule already in the pool. -/
theorem c9_createScheduleVariations (reqs : List Requirement) (base : Schedule)
    (pool : List Schedule) :
    createScheduleVariations reqs base pool =
      ((base.filter fun s => !hasSpecificRequirement reqs s).flatMap
        fun fs => [specVariant base fs 1, specVariant base fs 2, specVariant base fs 3]).foldl
        specAddVariant pool := by
  rw [createScheduleVariations_eq_foldl]
  have hfun : addVariantIfFresh = specAddVariant := by
    funext pool2 n
    exact addVariantIfFresh_eq_spec pool2 n
  rw [hfun]
  have hmap : ((base.filter fun s => !hasSpecificRequirement reqs s).flatMap
        fun fs => [mkVariant base fs 1, mkVariant base fs 2, mkVariant base fs 3]) =
      ((base.filter fun s => !hasSpecificRequirement reqs s).flatMap
        fun fs => [specVariant base fs 1, specVariant base fs 2, specVariant base fs 3]) := by
    have hmem : ∀ fs ∈ (base.filter fun s => !hasSpecificRequirement reqs s),
        ∃ t ∈ base, t.id = fs.id :=
      fun fs hfs => ⟨fs, List.mem_of_mem_filter hfs, rfl⟩
    revert hmem
    generalize (base.filter fun s => !hasSpecificRequirement reqs s) = fl
    intro hmem
    induction fl with
    | nil => rfl
    | cons fs rest ih =>
        have h1 := hmem fs (List.mem_cons_self fs rest)
        have h2 : ∀ u ∈ rest, ∃ t ∈ base, t.id = u.id :=
          fun u hu => hmem u (List.mem_cons_of_mem fs hu)
        rw [List.flatMap_cons, List.flatMap_cons,
          mkVariant_eq_specVariant base fs h1 1, mkVariant_eq_specVariant base fs h1 2,
          mkVariant_eq_specVariant base fs h1 3, ih h2]
  rw [hmap]

/-- Freshness of the guarded-insertion fold: everything appended beyond the
initial pool is conflict-free and not equivalent to any entry that preceded
it at its insertion. -/
theorem foldl_addVariantIfFresh_fresh :
    ∀ (cands : List Schedule) (pool : List Schedule),
    ∃ added, cands.foldl addVariantIfFresh pool = pool ++ added ∧
      ∀ k (hk : k < added.length),
        hasConflicts (added.get ⟨k, hk⟩) = false ∧
        ∀ p ∈ pool ++ added.take k,
          areSchedulesEquivalent (added.get ⟨k, hk⟩) p = false := by
  intro cands
  induction cands with
  | nil =>
      intro pool
      exact ⟨[], by simp, fun k hk => absurd hk (by simp)⟩
  | cons c cs ih =>
      intro pool
      show ∃ added, cs.foldl addVariantIfFresh (addVariantIfFresh pool c) = pool ++ added ∧ _
      by_cases hc : hasConflicts c = false
      · by_cases hd : (pool.any fun e => areSchedulesEquivalent c e) = true
        · have hstep : addVariantIfFresh pool c = pool := by
            simp [addVariantIfFresh, hc, hd]
          rw [hstep]
          exact ih pool
        · have hstep : addVariantIfFresh pool c = pool ++ [c] := by
            simp [addVariantIfFresh, hc, hd]
          rw [hstep]
          rcases ih (pool ++ [c]) with ⟨added1, heq, hfresh⟩
          refine ⟨c :: added1, by rw [heq]; simp, ?_⟩
          intro k hk
          cases k with
          | zero =>
              refine ⟨hc, ?_⟩
              intro p hp
              simp only [List.take_zero, List.append_nil] at hp
              have := List.any_eq_false.mp (by simpa using hd) p hp
              simpa using this
          | succ j =>
              have hj : j < added1.length := by simpa using hk
              rcases hfresh j hj with ⟨h1, h2⟩
              refine ⟨h1, ?_⟩
              intro p hp
              apply h2 p
              simpa [List.take_succ_cons, List.append_assoc] using hp
      · have hct : hasConflicts c = true := by simpa using hc
        have hstep : addVariantIfFresh pool c = pool := by
          simp [addVariantIfFresh, hct]
        rw [hstep]
        exact ih pool

/-- C6 (amended): every schedule the variation pass adds to the pool is
conflict-free and not §4.4-equivalent to any schedule already in the pool at
the moment of its insertion; base schedules, by contrast, are appended by
generateSchedule without any duplicate check, so equivalent base schedules
from different frontiers can coexist in the pool. -/
theorem c6_variation_dedup (reqs : List Requirement) (base : Schedule)
    (pool : List Schedule) :
    ∃ added, createScheduleVariations reqs base pool = pool ++ added ∧
      ∀ k (hk : k < added.length),
        hasConflicts (added.get ⟨k, hk⟩) = false ∧
        ∀ p ∈ pool ++ added.take k,
          areSchedulesEquivalent (added.get ⟨k, hk⟩) p = false := by
  rw [createScheduleVariations_eq_foldl]
  exact foldl_addVariantIfFresh_fresh _ pool

/-- C6 counterexample: with two sections of distinct teachers and distinct
durations, the forward and reversed frontier produce the same base schedule,
and generateSchedule appends both base schedules to the pool without a
duplicate check — the final pool holds two §4.4-equivalent entries. -/
theorem c6_counterexample :
    ∃ i j : Fin ((generateSchedule [exSecA, exSecB] []).2.1.length),
      i ≠ j ∧
      areSchedulesEquivalent ((generateSchedule [exSecA, exSecB] []).2.1.get i)
        ((generateSchedule [exSecA, exSecB] []).2.1.get j) = true := by
  refine ⟨⟨0, by decide⟩, ⟨7, by decide⟩, by decide, by decide⟩

/-- Witness for C6: a one-section base schedule with no requirements; the
variation pass appends only fresh, conflict-free variants. -/
theorem c6_witness :
    ∃ added, createScheduleVariations [] [exConf1] [] = [] ++ added ∧
      ∀ k (hk : k < added.length),
        hasConflicts (added.get ⟨k, hk⟩) = false ∧
        ∀ p ∈ ([] : List Schedule) ++ added.take k,
          areSchedulesEquivalent (added.get ⟨k, hk⟩) p = false :=
  c6_variation_dedup [] [exConf1] []

/-! Claim C7: the flexible-placement loop. -/

theorem specSelectDay_mem_weekdays (w : Day → Int) : specSelectDay w ∈ weekdays := by
  unfold specSelectDay weekdays
  simp only [List.foldl]
  split_ifs <;> decide

/-- The INT_MAX-seeded scan of the source equals the plain minimum scan
whenever every watermark is below INT_MAX. -/
theorem codeSelectDay_eq_spec (w : Day → Int) (hw : ∀ d ∈ weekdays, w d < intMax) :
    codeSelectDay w = specSelectDay w := by
  have h1 := hw Day.monday (by simp [weekdays])
  unfold codeSelectDay specSelectDay weekdays
  simp only [List.foldl]
  rw [if_pos h1]
  split_ifs <;> rfl

theorem placeFlexible_eq_spec :
    ∀ (l : List Section) (acc : List Section) (w : Day → Int),
      (∀ s ∈ l, 0 ≤ s.timeSlot.durationMinutes) →
      (∀ d ∈ weekdays, w d + (l.map fun s => s.timeSlot.durationMinutes).sum < intMax) →
      placeFlexible l acc w =
        (acc ++ (specPlaceFlexible l w).1, (specPlaceFlexible l w).2) := by
  intro l
  induction l with
  | nil =>
      intro acc w _ _
      simp [placeFlexible, specPlaceFlexible]
  | cons s rest ih =>
      intro acc w hd hw
      simp only [List.map_cons, List.sum_cons] at hw
      have hds : 0 ≤ s.timeSlot.durationMinutes := hd s (List.mem_cons_self s rest)
      have hsum : 0 ≤ (rest.map fun t => t.timeSlot.durationMinutes).sum :=
        List.sum_nonneg fun x hx => by
          rcases List.mem_map.mp hx with ⟨t, ht, rfl⟩
          exact hd t (List.mem_cons_of_mem s ht)
      have hsel : codeSelectDay w = specSelectDay w := by
        apply codeSelectDay_eq_spec
        intro d hdmem
        have := hw d hdmem
        omega
      simp only [placeFlexible, specPlaceFlexible]
      rw [hsel]
      have hd3 : ∀ t ∈ rest, 0 ≤ t.timeSlot.durationMinutes :=
        fun t ht => hd t (List.mem_cons_of_mem s ht)
      have hw1 : ∀ d ∈ weekdays,
          (if d = specSelectDay w
            then w (specSelectDay w) + s.timeSlot.durationMinutes else w d) +
            (rest.map fun t => t.timeSlot.durationMinutes).sum < intMax := by
        intro d hdmem
        by_cases hd2 : d = specSelectDay w
        · rw [if_pos hd2]
          have hwd := hw d hdmem
          rw [hd2] at hwd
          omega
        · rw [if_neg hd2]
          have := hw d hdmem
          omega
      rw [ih _ _ hd3 hw1]
      simp

/-- C7: in tryCreateScheduleWithTimes the flexible sections are placed in
duration-descending order; the placement loop equals the specification's
description — each section goes to the weekday with the smallest watermark
(earliest weekday wins ties), starts exactly at that watermark, and advances
it by the section's duration — and every weekday watermark starts at 08:00
(480 minutes). -/
theorem c7_flexible_placement (flex : List Section) (w : Day → Int)
    (hdur : ∀ s ∈ flex, 0 ≤ s.timeSlot.durationMinutes)
    (hw : ∀ d ∈ weekdays,
      w d + (flex.map fun s => s.timeSlot.durationMinutes).sum < intMax) :
    placeFlexible (sortFlex flex) [] w = specPlaceFlexible (sortFlex flex) w ∧
    (sortFlex flex).Perm flex ∧
    List.Pairwise
      (fun a b => b.timeSlot.durationMinutes ≤ a.timeSlot.durationMinutes)
      (sortFlex flex) ∧
    (∀ d ∈ weekdays, initialWatermark d = 480) := by
  have hperm : (sortFlex flex).Perm flex := sortBy_perm _ flex
  have hsum : ((sortFlex flex).map fun s => s.timeSlot.durationMinutes).sum =
      (flex.map fun s => s.timeSlot.durationMinutes).sum :=
    (hperm.map fun s => s.timeSlot.durationMinutes).sum_eq
  refine ⟨?_, hperm, ?_, ?_⟩
  · rw [placeFlexible_eq_spec (sortFlex flex) [] w
      (fun s hs => hdur s (hperm.mem_iff.mp hs))
      (fun d hd => by rw [hsum]; exact hw d hd)]
    simp
  · have := @sortBy_pairwise Section
      (fun a b => decide (b.timeSlot.durationMinutes ≤ a.timeSlot.durationMinutes))
      (fun a b c hab hbc => by
        rw [decide_eq_true_eq] at hab hbc ⊢
        omega)
      (fun a b => by
        rcases le_total b.timeSlot.durationMinutes a.timeSlot.durationMinutes with h | h
        · exact Or.inl (by rw [decide_eq_true_eq]; exact h)
        · exact Or.inr (by rw [decide_eq_true_eq]; exact h)) flex
    exact this.imp fun hab => by rwa [decide_eq_true_eq] at hab
  · intro d hd
    unfold initialWatermark
    rw [if_neg]
    intro hcon
    rw [hcon] at hd
    simp [weekdays] at hd

/-- Witness for C7: two flexible sections (90 and 60 minutes) under the
initial 08:00 watermarks. -/
theorem c7_witness :
    placeFlexible (sortFlex [exSecA, exSecB]) [] initialWatermark =
      specPlaceFlexible (sortFlex [exSecA, exSecB]) initialWatermark ∧
    (sortFlex [exSecA, exSecB]).Perm [exSecA, exSecB] ∧
    List.Pairwise
      (fun a b => b.timeSlot.durationMinutes ≤ a.timeSlot.durationMinutes)
      (sortFlex [exSecA, exSecB]) ∧
    (∀ d ∈ weekdays, initialWatermark d = 480) :=
  c7_flexible_placement [exSecA, exSecB] initialWatermark (by decide) (by decide)

/-! Claims C8 and C10: structure of the placement phases. -/

theorem find?_pin_shape {reqs : List Requirement} {i : String} {r : Requirement}
    (h : reqs.find? (isPinFor i) = some r) :
    ∃ pinSec reqSlot, r = .sectionTimeSlotReq pinSec reqSlot ∧ pinSec.id = i := by
  have hp := List.find?_some h
  cases r with
  | sectionTimeSlotReq pinSec reqSlot =>
      exact ⟨pinSec, reqSlot, rfl, by simpa [isPinFor] using hp⟩
  | timeSlotReq c t => simp [isPinFor] at hp
  | teacherReq c t => simp [isPinFor] at hp

theorem pinnedSlotOf_eq_some {reqs : List Requirement} {s pinSec : Section}
    {reqSlot : TimeSlot}
    (hf : reqs.find? (isPinFor s.id) = some (.sectionTimeSlotReq pinSec reqSlot)) :
    pinnedSlotOf reqs s =
      some ⟨reqSlot.day, reqSlot.startHour, reqSlot.startMinute,
        s.timeSlot.durationMinutes⟩ := by
  unfold pinnedSlotOf
  rw [hf]

theorem pinnedSlotOf_eq_none {reqs : List Requirement} {s : Section}
    (hf : reqs.find? (isPinFor s.id) = none) :
    pinnedSlotOf reqs s = none := by
  unfold pinnedSlotOf
  rw [hf]

theorem hasSpec_find {reqs : List Requirement} {s : Section}
    (h : hasSpecificRequirement reqs s = true) :
    ∃ pinSec reqSlot,
      reqs.find? (isPinFor s.id) = some (.sectionTimeSlotReq pinSec reqSlot) := by
  unfold hasSpecificRequirement at h
  have h2 : (reqs.find? (isPinFor s.id)).isSome :=
    (List.find?_isSome).mpr (List.any_eq_true.mp h)
  rcases Option.isSome_iff_exists.mp h2 with ⟨r, hr⟩
  rcases find?_pin_shape hr with ⟨pinSec, reqSlot, rfl, -⟩
  exact ⟨pinSec, reqSlot, hr⟩

theorem placePinned_cons_pin {reqs : List Requirement} {s pinSec : Section}
    {reqSlot : TimeSlot} (rest acc : List Section) (w : Day → Int)
    (hf : reqs.find? (isPinFor s.id) = some (.sectionTimeSlotReq pinSec reqSlot)) :
    placePinned reqs (s :: rest) acc w =
      placePinned reqs rest
        (acc ++ [{ s with timeSlot := ⟨reqSlot.day, reqSlot.startHour,
          reqSlot.startMinute, s.timeSlot.durationMinutes⟩ }])
        (fun d => if d = reqSlot.day
          then max (w reqSlot.day)
            (reqSlot.startHour * 60 + reqSlot.startMinute + s.timeSlot.durationMinutes)
          else w d) := by
  simp only [placePinned, hf]

theorem placePinned_cons_none {reqs : List Requirement} {s : Section}
    (rest acc : List Section) (w : Day → Int)
    (hf : reqs.find? (isPinFor s.id) = none) :
    placePinned reqs (s :: rest) acc w = placePinned reqs rest acc w := by
  simp only [placePinned, hf]

theorem placePinned_props (reqs : List Requirement) :
    ∀ (l acc : List Section) (w : Day → Int),
      (placePinned reqs l acc w).1 =
        acc ++ (l.filterMap fun s => (pinnedSlotOf reqs s).map
          fun t => { s with timeSlot := t }) ∧
      (∀ d, w d ≤ (placePinned reqs l acc w).2 d) ∧
      (∀ t ∈ (l.filterMap fun s => (pinnedSlotOf reqs s).map
          fun u => { s with timeSlot := u }),
        t.timeSlot.startHour * 60 + t.timeSlot.startMinute + t.timeSlot.durationMinutes ≤
          (placePinned reqs l acc w).2 t.timeSlot.day) := by
  intro l
  induction l with
  | nil =>
      intro acc w
      refine ⟨by simp [placePinned], fun d => le_refl _, ?_⟩
      intro t ht
      simp at ht
  | cons s rest ih =>
      intro acc w
      cases hf : reqs.find? (isPinFor s.id) with
      | none =>
          rw [placePinned_cons_none rest acc w hf]
          have hps : pinnedSlotOf reqs s = none := pinnedSlotOf_eq_none hf
          rcases ih acc w with ⟨h1, h2, h3⟩
          refine ⟨?_, h2, ?_⟩
          · rw [h1]
            simp [List.filterMap_cons, hps]
          · intro t ht
            simp only [List.filterMap_cons, hps] at ht
            exact h3 t ht
      | some r =>
          rcases find?_pin_shape hf with ⟨pinSec, reqSlot, rfl, hpid⟩
          rw [placePinned_cons_pin rest acc w hf]
          have hps : pinnedSlotOf reqs s = some ⟨reqSlot.day, reqSlot.startHour,
            reqSlot.startMinute, s.timeSlot.durationMinutes⟩ := pinnedSlotOf_eq_some hf
          have hexp : ((s :: rest).filterMap fun s2 => (pinnedSlotOf reqs s2).map
              fun u => { s2 with timeSlot := u }) =
              { s with timeSlot := ⟨reqSlot.day, reqSlot.startHour, reqSlot.startMinute,
                s.timeSlot.durationMinutes⟩ } ::
              (rest.filterMap fun s2 => (pinnedSlotOf reqs s2).map
                fun u => { s2 with timeSlot := u }) := by
            rw [List.filterMap_cons, hps]
            rfl
          rcases ih (acc ++ [{ s with timeSlot := ⟨reqSlot.day, reqSlot.startHour,
              reqSlot.startMinute, s.timeSlot.durationMinutes⟩ }])
            (fun d => if d = reqSlot.day
              then max (w reqSlot.day)
                (reqSlot.startHour * 60 + reqSlot.startMinute + s.timeSlot.durationMinutes)
              else w d) with ⟨h1, h2, h3⟩
          have hmono : ∀ d, w d ≤ (if d = reqSlot.day
              then max (w reqSlot.day)
                (reqSlot.startHour * 60 + reqSlot.startMinute + s.timeSlot.durationMinutes)
              else w d) := by
            intro d
            by_cases hd : d = reqSlot.day
            · rw [if_pos hd, hd]
              exact le_max_left _ _
            · rw [if_neg hd]
          refine ⟨?_, ?_, ?_⟩
          · rw [h1, hexp]
            simp [List.append_assoc]
          · intro d
            exact le_trans (hmono d) (h2 d)
          · intro t ht
            rw [hexp] at ht
            rcases List.mem_cons.mp ht with rfl | ht
            · refine le_trans ?_ (h2 reqSlot.day)
              have : reqSlot.startHour * 60 + reqSlot.startMinute +
                  s.timeSlot.durationMinutes ≤
                  max (w reqSlot.day) (reqSlot.startHour * 60 + reqSlot.startMinute +
                    s.timeSlot.durationMinutes) := le_max_right _ _
              rw [if_pos rfl]
              exact this
            · exact h3 t ht

/-- No conflict against a later section whose start is at or after this
section's end on a shared day. -/
theorem conflict_false_of_end_le {s f : Section}
    (hend : s.timeSlot.day = f.timeSlot.day →
      s.timeSlot.startHour * 60 + s.timeSlot.startMinute + s.timeSlot.durationMinutes ≤
        f.timeSlot.startHour * 60 + f.timeSlot.startMinute) :
    sectionsConflict s f = false := by
  have hov : TimeSlot.overlaps s.timeSlot f.timeSlot = false := by
    unfold TimeSlot.overlaps
    split_ifs with h1 h2 h3
    · rfl
    · rfl
    · rfl
    · have hdeq : s.timeSlot.day = f.timeSlot.day := not_not.mp h2
      have h5 := hend hdeq
      have h4 : decide (s.timeSlot.startHour * 60 + s.timeSlot.startMinute +
          s.timeSlot.durationMinutes >
          f.timeSlot.startHour * 60 + f.timeSlot.startMinute) = false :=
        decide_eq_false (by omega)
      show (decide (s.timeSlot.startHour * 60 + s.timeSlot.startMinute <
          f.timeSlot.startHour * 60 + f.timeSlot.startMinute + f.timeSlot.durationMinutes) &&
        decide (s.timeSlot.startHour * 60 + s.timeSlot.startMinute +
          s.timeSlot.durationMinutes >
          f.timeSlot.startHour * 60 + f.timeSlot.startMinute)) = false
      rw [h4, Bool.and_false]
  unfold sectionsConflict
  rw [hov, Bool.and_false]

theorem placeFlexible_cons (f : Section) (rest acc : List Section) (w : Day → Int) :
    placeFlexible (f :: rest) acc w =
      placeFlexible rest
        (acc ++ [{ f with timeSlot := ⟨codeSelectDay w, Int.tdiv (w (codeSelectDay w)) 60,
          Int.tmod (w (codeSelectDay w)) 60, f.timeSlot.durationMinutes⟩ }])
        (fun d => if d = codeSelectDay w
          then w (codeSelectDay w) + f.timeSlot.durationMinutes else w d) := rfl

theorem placeFlexible_inv :
    ∀ (l acc : List Section) (w : Day → Int),
      (∀ s ∈ l, 0 ≤ s.timeSlot.durationMinutes) →
      (∀ s ∈ acc, s.timeSlot.startHour * 60 + s.timeSlot.startMinute +
        s.timeSlot.durationMinutes ≤ w s.timeSlot.day) →
      List.Pairwise (fun a b => sectionsConflict a b = false) acc →
      (placeFlexible l acc w).1.length = acc.length + l.length ∧
      List.Pairwise (fun a b => sectionsConflict a b = false) (placeFlexible l acc w).1 ∧
      ∃ tail, (placeFlexible l acc w).1 = acc ++ tail ∧
        ∀ t ∈ tail, ∃ f ∈ l, t.id = f.id := by
  intro l
  induction l with
  | nil =>
      intro acc w _ _ hpw
      exact ⟨by simp [placeFlexible], hpw, [], by simp [placeFlexible], by simp⟩
  | cons f rest ih =>
      intro acc w hd hend hpw
      rw [placeFlexible_cons]
      have hdf : 0 ≤ f.timeSlot.durationMinutes := hd f (List.mem_cons_self f rest)
      set g : Section := { f with timeSlot := ⟨codeSelectDay w,
        Int.tdiv (w (codeSelectDay w)) 60, Int.tmod (w (codeSelectDay w)) 60,
        f.timeSlot.durationMinutes⟩ } with hg
      set w1 : Day → Int := fun d => if d = codeSelectDay w
        then w (codeSelectDay w) + f.timeSlot.durationMinutes else w d with hw1
      have hgday : g.timeSlot.day = codeSelectDay w := rfl
      have hgdur : g.timeSlot.durationMinutes = f.timeSlot.durationMinutes := rfl
      have hgid : g.id = f.id := rfl
      have hgstart : g.timeSlot.startHour * 60 + g.timeSlot.startMinute =
          w (codeSelectDay w) := by
        show Int.tdiv (w (codeSelectDay w)) 60 * 60 + Int.tmod (w (codeSelectDay w)) 60 =
          w (codeSelectDay w)
        have := Int.tdiv_add_tmod (w (codeSelectDay w)) 60
        omega
      have hw1mono : ∀ d, w d ≤ w1 d := by
        intro d
        show w d ≤ if d = codeSelectDay w
          then w (codeSelectDay w) + f.timeSlot.durationMinutes else w d
        by_cases hdq : d = codeSelectDay w
        · rw [if_pos hdq, hdq]
          omega
        · rw [if_neg hdq]
      have hw1sel : w1 (codeSelectDay w) =
          w (codeSelectDay w) + f.timeSlot.durationMinutes := by
        show (if codeSelectDay w = codeSelectDay w
          then w (codeSelectDay w) + f.timeSlot.durationMinutes
          else w (codeSelectDay w)) = _
        rw [if_pos rfl]
      have hend1 : ∀ s ∈ acc ++ [g],
          s.timeSlot.startHour * 60 + s.timeSlot.startMinute +
            s.timeSlot.durationMinutes ≤ w1 s.timeSlot.day := by
        intro s hs
        rcases List.mem_append.mp hs with hs | hs
        · exact le_trans (hend s hs) (hw1mono s.timeSlot.day)
        · rcases List.mem_singleton.mp hs with rfl
          rw [hgday, hw1sel]
          omega
      have hpw1 : List.Pairwise (fun a b => sectionsConflict a b = false) (acc ++ [g]) := by
        rw [List.pairwise_append]
        refine ⟨hpw, by simp, ?_⟩
        intro a ha b hb
        rcases List.mem_singleton.mp hb with rfl
        apply conflict_false_of_end_le
        intro hdeq
        have hb2 := hend a ha
        rw [hgday] at hdeq
        rw [hdeq] at hb2
        omega
      rcases ih (acc ++ [g]) w1 (fun t ht => hd t (List.mem_cons_of_mem f ht)) hend1 hpw1
        with ⟨hl, hp, tail1, heq, hids⟩
      refine ⟨?_, hp, g :: tail1, ?_, ?_⟩
      · rw [hl]
        simp only [List.length_append, List.length_singleton, List.length_cons,
          List.length_nil]
        omega
      · rw [heq]
        simp
      · intro t ht
        rcases List.mem_cons.mp ht with rfl | ht
        · exact ⟨f, List.mem_cons_self f rest, hgid⟩
        · rcases hids t ht with ⟨f2, hf2, hid2⟩
          exact ⟨f2, List.mem_cons_of_mem f hf2, hid2⟩

theorem placeFlexible_append : ∀ (l acc : List Section) (w : Day → Int),
    ∃ tail, (placeFlexible l acc w).1 = acc ++ tail ∧
      ∀ t ∈ tail, ∃ f ∈ l, t.id = f.id := by
  intro l
  induction l with
  | nil =>
      intro acc w
      exact ⟨[], by simp [placeFlexible], by simp⟩
  | cons f rest ih =>
      intro acc w
      rw [placeFlexible_cons]
      rcases ih (acc ++ [{ f with timeSlot := ⟨codeSelectDay w,
          Int.tdiv (w (codeSelectDay w)) 60, Int.tmod (w (codeSelectDay w)) 60,
          f.timeSlot.durationMinutes⟩ }])
        (fun d => if d = codeSelectDay w
          then w (codeSelectDay w) + f.timeSlot.durationMinutes else w d)
        with ⟨tail1, heq, hids⟩
      refine ⟨{ f with timeSlot := ⟨codeSelectDay w,
          Int.tdiv (w (codeSelectDay w)) 60, Int.tmod (w (codeSelectDay w)) 60,
          f.timeSlot.durationMinutes⟩ } :: tail1, by rw [heq]; simp, ?_⟩
      intro t ht
      rcases List.mem_cons.mp ht with rfl | ht
      · exact ⟨f, List.mem_cons_self f rest, rfl⟩
      · rcases hids t ht with ⟨f2, hf2, hid2⟩
        exact ⟨f2, List.mem_cons_of_mem f hf2, hid2⟩

theorem selectedSections_length (secs : List Section) :
    ∀ perm : List Nat, (∀ i ∈ perm, i < secs.length) →
      (selectedSections secs perm).length = perm.length := by
  intro perm
  induction perm with
  | nil => intro _; rfl
  | cons i rest ih =>
      intro hv
      have hi : i < secs.length := hv i (List.mem_cons_self i rest)
      obtain ⟨a, ha⟩ : ∃ a, secs.get? i = some a := by
        cases h : secs.get? i with
        | some a => exact ⟨a, rfl⟩
        | none => exact absurd (List.get?_eq_none.mp h) (by omega)
      have hexp : selectedSections secs (i :: rest) = a :: selectedSections secs rest := by
        show List.filterMap _ (i :: rest) = _
        rw [List.filterMap_cons, ha]
        rfl
      rw [hexp, List.length_cons, List.length_cons,
        ih fun j hj => hv j (List.mem_cons_of_mem i hj)]

theorem mem_selectedSections {secs : List Section} {perm : List Nat} {s : Section}
    (h : s ∈ selectedSections secs perm) : s ∈ secs := by
  rcases List.mem_filterMap.mp h with ⟨i, -, hi⟩
  exact List.get?_mem hi

theorem pinnedPlaced_length {reqs : List Requirement} :
    ∀ l : List Section, (∀ s ∈ l, hasSpecificRequirement reqs s = true) →
      (l.filterMap fun s => (pinnedSlotOf reqs s).map
        fun u => { s with timeSlot := u }).length = l.length := by
  intro l
  induction l with
  | nil => intro _; rfl
  | cons s rest ih =>
      intro h
      rcases hasSpec_find (h s (List.mem_cons_self s rest)) with ⟨pinSec, reqSlot, hf⟩
      have hexp : ((s :: rest).filterMap fun s2 => (pinnedSlotOf reqs s2).map
          fun u => { s2 with timeSlot := u }) =
          { s with timeSlot := ⟨reqSlot.day, reqSlot.startHour, reqSlot.startMinute,
            s.timeSlot.durationMinutes⟩ } ::
          (rest.filterMap fun s2 => (pinnedSlotOf reqs s2).map
            fun u => { s2 with timeSlot := u }) := by
        rw [List.filterMap_cons, pinnedSlotOf_eq_some hf]
        rfl
      rw [hexp]
      simp [ih fun u hu => h u (List.mem_cons_of_mem s hu)]

theorem pinnedPlaced_pairwise {reqs : List Requirement} {l : List Section}
    (hpin : List.Pairwise (fun s1 s2 => s1.teacher.id = s2.teacher.id →
      ∀ t1 t2, pinnedSlotOf reqs s1 = some t1 → pinnedSlotOf reqs s2 = some t2 →
        t1.overlaps t2 = false) l) :
    List.Pairwise (fun a b => sectionsConflict a b = false)
      (l.filterMap fun s => (pinnedSlotOf reqs s).map
        fun u => { s with timeSlot := u }) := by
  rw [List.pairwise_filterMap]
  refine hpin.imp ?_
  intro a b hab x hx y hy
  have hx2 := Option.mem_def.mp hx
  have hy2 := Option.mem_def.mp hy
  rcases Option.map_eq_some'.mp hx2 with ⟨t1, ht1, rfl⟩
  rcases Option.map_eq_some'.mp hy2 with ⟨t2, ht2, rfl⟩
  by_cases hteach : a.teacher.id = b.teacher.id
  · have hov := hab hteach t1 t2 ht1 ht2
    show (decide (a.teacher.id = b.teacher.id) &&
      (t1.hasDay && t1.hasStartTime && t2.hasDay && t2.hasStartTime) &&
      t1.overlaps t2) = false
    rw [hov, Bool.and_false]
  · show (decide (a.teacher.id = b.teacher.id) &&
      (t1.hasDay && t1.hasStartTime && t2.hasDay && t2.hasStartTime) &&
      t1.overlaps t2) = false
    rw [decide_eq_false hteach]
    simp

/-- Core of C10: with every pinned entry genuinely pinned, flexible durations
non-negative, and no same-teacher overlap among the pinned placements, the
assembled schedule is complete and conflict-free. -/
theorem scheduleParts_no_conflict (reqs : List Requirement)
    (pinnedL flexL : List Section)
    (hpinall : ∀ s ∈ pinnedL, hasSpecificRequirement reqs s = true)
    (hdurflex : ∀ s ∈ flexL, 0 ≤ s.timeSlot.durationMinutes)
    (hpin : List.Pairwise (fun s1 s2 => s1.teacher.id = s2.teacher.id →
      ∀ t1 t2, pinnedSlotOf reqs s1 = some t1 → pinnedSlotOf reqs s2 = some t2 →
        t1.overlaps t2 = false) pinnedL) :
    (placeFlexible (sortFlex flexL)
      (placePinned reqs pinnedL [] initialWatermark).1
      (placePinned reqs pinnedL [] initialWatermark).2).1.length =
        pinnedL.length + flexL.length ∧
    hasConflicts (placeFlexible (sortFlex flexL)
      (placePinned reqs pinnedL [] initialWatermark).1
      (placePinned reqs pinnedL [] initialWatermark).2).1 = false := by
  obtain ⟨hp1, -, hp3⟩ := placePinned_props reqs pinnedL [] initialWatermark
  rw [List.nil_append] at hp1
  have hsfdur : ∀ s ∈ sortFlex flexL, 0 ≤ s.timeSlot.durationMinutes :=
    fun s hs => hdurflex s ((sortBy_perm _ flexL).mem_iff.mp hs)
  have hend0 : ∀ s ∈ (placePinned reqs pinnedL [] initialWatermark).1,
      s.timeSlot.startHour * 60 + s.timeSlot.startMinute + s.timeSlot.durationMinutes ≤
        (placePinned reqs pinnedL [] initialWatermark).2 s.timeSlot.day := by
    intro s hs
    rw [hp1] at hs
    exact hp3 s hs
  have hacc_pw : List.Pairwise (fun a b => sectionsConflict a b = false)
      (placePinned reqs pinnedL [] initialWatermark).1 := by
    rw [hp1]
    exact pinnedPlaced_pairwise hpin
  obtain ⟨hflen, hfpw, -⟩ := placeFlexible_inv (sortFlex flexL)
    (placePinned reqs pinnedL [] initialWatermark).1
    (placePinned reqs pinnedL [] initialWatermark).2 hsfdur hend0 hacc_pw
  constructor
  · have hsl : (sortFlex flexL).length = flexL.length := (sortBy_perm _ flexL).length_eq
    rw [hflen, hp1, pinnedPlaced_length pinnedL hpinall, hsl]
  · exact (hasConflicts_eq_false_iff _).mpr hfpw

/-- C10: for a permutation of valid indices, provided no two pinned sections
share a teacher while their pinned slots overlap, the conflict-discard branch
of tryCreateScheduleWithTimes is unreachable: the returned schedule has one
section per permutation entry and no conflicts — greedy watermark placement
makes a flexible section start at or after the end of everything already on
its day. -/
theorem c10_no_discard (secs : List Section) (reqs : List Requirement)
    (perm : List Nat)
    (hvalid : ∀ i ∈ perm, i < secs.length)
    (hdur : ∀ s ∈ secs, 0 ≤ s.timeSlot.durationMinutes)
    (hpin : List.Pairwise (fun s1 s2 => s1.teacher.id = s2.teacher.id →
      ∀ t1 t2, pinnedSlotOf reqs s1 = some t1 → pinnedSlotOf reqs s2 = some t2 →
        t1.overlaps t2 = false)
      ((selectedSections secs perm).filter fun s => hasSpecificRequirement reqs s)) :
    (tryCreateScheduleWithTimes secs reqs perm).length = perm.length ∧
    hasConflicts (tryCreateScheduleWithTimes secs reqs perm) = false := by
  have hkey := scheduleParts_no_conflict reqs
    ((selectedSections secs perm).filter fun s => hasSpecificRequirement reqs s)
    ((selectedSections secs perm).filter fun s => !hasSpecificRequirement reqs s)
    (fun s hs => (List.mem_filter.mp hs).2)
    (fun s hs => hdur s (mem_selectedSections (List.mem_of_mem_filter hs)))
    hpin
  have hres : tryCreateScheduleWithTimes secs reqs perm =
      (placeFlexible (sortFlex ((selectedSections secs perm).filter
          fun s => !hasSpecificRequirement reqs s))
        (placePinned reqs ((selectedSections secs perm).filter
          fun s => hasSpecificRequirement reqs s) [] initialWatermark).1
        (placePinned reqs ((selectedSections secs perm).filter
          fun s => hasSpecificRequirement reqs s) [] initialWatermark).2).1 := by
    show (if hasConflicts (placeFlexible (sortFlex ((selectedSections secs perm).filter
          fun s => !hasSpecificRequirement reqs s))
        (placePinned reqs ((selectedSections secs perm).filter
          fun s => hasSpecificRequirement reqs s) [] initialWatermark).1
        (placePinned reqs ((selectedSections secs perm).filter
          fun s => hasSpecificRequirement reqs s) [] initialWatermark).2).1
      then [] else _) = _
    rw [hkey.2]
    rfl
  rw [hres]
  refine ⟨?_, hkey.2⟩
  rw [hkey.1]
  have hpart := (List.filter_append_perm
    (fun s => hasSpecificRequirement reqs s) (selectedSections secs perm)).length_eq
  rw [List.length_append] at hpart
  rw [hpart, selectedSections_length secs perm hvalid]

/-- Witness for C10: one pinned and one flexible section sharing a teacher;
the schedule keeps both entries and has no conflicts. -/
theorem c10_witness :
    (tryCreateScheduleWithTimes [exSecA, exSecC] [exPin] [0, 1]).length = [0, 1].length ∧
    hasConflicts (tryCreateScheduleWithTimes [exSecA, exSecC] [exPin] [0, 1]) = false :=
  c10_no_discard [exSecA, exSecC] [exPin] [0, 1] (by decide) (by decide) (by
    have hfl : ((selectedSections [exSecA, exSecC] [0, 1]).filter
        fun s => hasSpecificRequirement [exPin] s) = [exSecA] := by decide
    rw [hfl]
    simp)

/-- C8: every non-empty schedule returned by tryCreateScheduleWithTimes
contains, for each selected section matched by a SectionTimeSlotRequirement
(the first matching one), a section with that id carrying exactly the
requirement's day, start hour and start minute together with the original
section's duration; consequently that requirement is satisfied on the
returned schedule. -/
theorem c8_pinned_sections (secs : List Section) (reqs : List Requirement)
    (perm : List Nat)
    (hne : tryCreateScheduleWithTimes secs reqs perm ≠ []) :
    ∀ s ∈ selectedSections secs perm, ∀ pinSec reqSlot,
      reqs.find? (isPinFor s.id) = some (.sectionTimeSlotReq pinSec reqSlot) →
      (∃ t ∈ tryCreateScheduleWithTimes secs reqs perm,
        t.id = s.id ∧ t.timeSlot = ⟨reqSlot.day, reqSlot.startHour, reqSlot.startMinute,
          s.timeSlot.durationMinutes⟩) ∧
      isSatisfied (.sectionTimeSlotReq pinSec reqSlot)
        (tryCreateScheduleWithTimes secs reqs perm) = true := by
  intro s hs pinSec reqSlot hf
  have hres : tryCreateScheduleWithTimes secs reqs perm =
      (if hasConflicts (placeFlexible (sortFlex ((selectedSections secs perm).filter
          fun x => !hasSpecificRequirement reqs x))
        (placePinned reqs ((selectedSections secs perm).filter
          fun x => hasSpecificRequirement reqs x) [] initialWatermark).1
        (placePinned reqs ((selectedSections secs perm).filter
          fun x => hasSpecificRequirement reqs x) [] initialWatermark).2).1
       then []
       else (placeFlexible (sortFlex ((selectedSections secs perm).filter
          fun x => !hasSpecificRequirement reqs x))
        (placePinned reqs ((selectedSections secs perm).filter
          fun x => hasSpecificRequirement reqs x) [] initialWatermark).1
        (placePinned reqs ((selectedSections secs perm).filter
          fun x => hasSpecificRequirement reqs x) [] initialWatermark).2).1) := rfl
  have hresult : tryCreateScheduleWithTimes secs reqs perm =
      (placeFlexible (sortFlex ((selectedSections secs perm).filter
          fun x => !hasSpecificRequirement reqs x))
        (placePinned reqs ((selectedSections secs perm).filter
          fun x => hasSpecificRequirement reqs x) [] initialWatermark).1
        (placePinned reqs ((selectedSections secs perm).filter
          fun x => hasSpecificRequirement reqs x) [] initialWatermark).2).1 := by
    rw [hres] at hne ⊢
    cases hc : hasConflicts (placeFlexible (sortFlex ((selectedSections secs perm).filter
          fun x => !hasSpecificRequirement reqs x))
        (placePinned reqs ((selectedSections secs perm).filter
          fun x => hasSpecificRequirement reqs x) [] initialWatermark).1
        (placePinned reqs ((selectedSections secs perm).filter
          fun x => hasSpecificRequirement reqs x) [] initialWatermark).2).1 with
    | true =>
        rw [hc] at hne
        simp at hne
    | false =>
        simp
  rw [hresult]
  have hspec : hasSpecificRequirement reqs s = true :=
    List.any_eq_true.mpr ⟨_, List.mem_of_find?_eq_some hf, List.find?_some hf⟩
  have hsp : s ∈ (selectedSections secs perm).filter
      fun x => hasSpecificRequirement reqs x :=
    List.mem_filter.mpr ⟨hs, hspec⟩
  have hpso : pinnedSlotOf reqs s = some ⟨reqSlot.day, reqSlot.startHour,
      reqSlot.startMinute, s.timeSlot.durationMinutes⟩ := pinnedSlotOf_eq_some hf
  obtain ⟨hp1, -, -⟩ := placePinned_props reqs
    ((selectedSections secs perm).filter fun x => hasSpecificRequirement reqs x)
    [] initialWatermark
  rw [List.nil_append] at hp1
  obtain ⟨tail, htail, hids⟩ := placeFlexible_append
    (sortFlex ((selectedSections secs perm).filter
      fun x => !hasSpecificRequirement reqs x))
    (placePinned reqs ((selectedSections secs perm).filter
      fun x => hasSpecificRequirement reqs x) [] initialWatermark).1
    (placePinned reqs ((selectedSections secs perm).filter
      fun x => hasSpecificRequirement reqs x) [] initialWatermark).2
  have himg : ({ s with timeSlot := ⟨reqSlot.day, reqSlot.startHour, reqSlot.startMinute,
      s.timeSlot.durationMinutes⟩ } : Section) ∈
      (placeFlexible (sortFlex ((selectedSections secs perm).filter
          fun x => !hasSpecificRequirement reqs x))
        (placePinned reqs ((selectedSections secs perm).filter
          fun x => hasSpecificRequirement reqs x) [] initialWatermark).1
        (placePinned reqs ((selectedSections secs perm).filter
          fun x => hasSpecificRequirement reqs x) [] initialWatermark).2).1 := by
    rw [htail]
    refine List.mem_append.mpr (Or.inl ?_)
    rw [hp1]
    exact List.mem_filterMap.mpr ⟨s, hsp, by rw [hpso]; rfl⟩
  have hpid : pinSec.id = s.id := by
    have := List.find?_some hf
    simpa [isPinFor] using this
  refine ⟨⟨_, himg, rfl, rfl⟩, ?_⟩
  have hchar : ∀ q ∈ (placeFlexible (sortFlex ((selectedSections secs perm).filter
          fun x => !hasSpecificRequirement reqs x))
        (placePinned reqs ((selectedSections secs perm).filter
          fun x => hasSpecificRequirement reqs x) [] initialWatermark).1
        (placePinned reqs ((selectedSections secs perm).filter
          fun x => hasSpecificRequirement reqs x) [] initialWatermark).2).1,
      q.id = s.id →
      q.timeSlot.day = reqSlot.day ∧ q.timeSlot.startHour = reqSlot.startHour ∧
        q.timeSlot.startMinute = reqSlot.startMinute := by
    intro q hq hqid
    rw [htail] at hq
    rcases List.mem_append.mp hq with hq | hq
    · rw [hp1] at hq
      rcases List.mem_filterMap.mp hq with ⟨u, -, hmap⟩
      rcases Option.map_eq_some'.mp hmap with ⟨tu, htu, rfl⟩
      have huid : u.id = s.id := hqid
      have hueq : pinnedSlotOf reqs u = some ⟨reqSlot.day, reqSlot.startHour,
          reqSlot.startMinute, u.timeSlot.durationMinutes⟩ := by
        apply pinnedSlotOf_eq_some
        rw [huid]
        exact hf
      rw [hueq] at htu
      injection htu with htu2
      subst htu2
      exact ⟨rfl, rfl, rfl⟩
    · exfalso
      rcases hids q hq with ⟨f2, hf2, hfid⟩
      have hf2mem : f2 ∈ (selectedSections secs perm).filter
          fun x => !hasSpecificRequirement reqs x :=
        (sortBy_perm _ _).mem_iff.mp hf2
      have hfspec := (List.mem_filter.mp hf2mem).2
      have hf2id : f2.id = s.id := by rw [← hfid, hqid]
      have hcontra : hasSpecificRequirement reqs f2 = true := by
        show reqs.any (isPinFor f2.id) = true
        rw [hf2id]
        exact hspec
      rw [hcontra] at hfspec
      simp at hfspec
  have hfindsome : ∃ q0,
      ((placeFlexible (sortFlex ((selectedSections secs perm).filter
          fun x => !hasSpecificRequirement reqs x))
        (placePinned reqs ((selectedSections secs perm).filter
          fun x => hasSpecificRequirement reqs x) [] initialWatermark).1
        (placePinned reqs ((selectedSections secs perm).filter
          fun x => hasSpecificRequirement reqs x) [] initialWatermark).2).1).find?
        (fun t => decide (t.id = pinSec.id)) = some q0 := by
    apply Option.isSome_iff_exists.mp
    apply (List.find?_isSome).mpr
    refine ⟨_, himg, ?_⟩
    rw [hpid]
    exact decide_eq_true rfl
  rcases hfindsome with ⟨q0, hq0⟩
  have hq0id : q0.id = s.id := by
    have := List.find?_some hq0
    rw [decide_eq_true_eq] at this
    rw [this, hpid]
  rcases hchar q0 (List.mem_of_find?_eq_some hq0) hq0id with ⟨hqd, hqh, hqm⟩
  show (match ((placeFlexible (sortFlex ((selectedSections secs perm).filter
          fun x => !hasSpecificRequirement reqs x))
        (placePinned reqs ((selectedSections secs perm).filter
          fun x => hasSpecificRequirement reqs x) [] initialWatermark).1
        (placePinned reqs ((selectedSections secs perm).filter
          fun x => hasSpecificRequirement reqs x) [] initialWatermark).2).1).find?
        (fun t => decide (t.id = pinSec.id)) with
    | none => false
    | some t =>
      (!reqSlot.hasDay || (t.timeSlot.hasDay && decide (t.timeSlot.day = reqSlot.day))) &&
      (!reqSlot.hasStartTime ||
        (t.timeSlot.hasStartTime &&
         decide (t.timeSlot.startHour = reqSlot.startHour) &&
         decide (t.timeSlot.startMinute = reqSlot.startMinute)))) = true
  rw [hq0]
  simp only [TimeSlot.hasDay, TimeSlot.hasStartTime, hqd, hqh, hqm]
  cases hb1 : decide (reqSlot.day ≠ Day.unassigned) <;>
    cases hb2 : decide (0 ≤ reqSlot.startHour) <;>
      cases hb3 : decide (0 ≤ reqSlot.startMinute) <;> simp

/-- Witness for C8: a pin on section sA at Monday 09:00; the produced
schedule places sA exactly there with its 90-minute duration and the
requirement is satisfied. -/
theorem c8_witness :
    (∃ t ∈ tryCreateScheduleWithTimes [exSecA, exSecB] [exPin] [0, 1],
      t.id = exSecA.id ∧ t.timeSlot = ⟨Day.monday, 9, 0, exSecA.timeSlot.durationMinutes⟩) ∧
    isSatisfied (.sectionTimeSlotReq exSecA ⟨Day.monday, 9, 0, 90⟩)
      (tryCreateScheduleWithTimes [exSecA, exSecB] [exPin] [0, 1]) = true :=
  c8_pinned_sections [exSecA, exSecB] [exPin] [0, 1] (by decide) exSecA (by decide)
    exSecA ⟨Day.monday, 9, 0, 90⟩ (by decide)

end CourseSched
